import Mathlib

/-!
Verification of the text-rendering core of `gpui-component`:
the token classifier (`crates/ui/src/text/utils.rs`), the inline-code
linkification of the document builder (`crates/ui/src/text/format/markdown.rs`),
and the run segmenter / selection geometry of the `Inline` element
(`crates/ui/src/text/inline.rs`).

Modelling conventions:
* Rust `&str` / `String` values are modelled as `List Char`; byte offsets are
  `Nat` values computed from `Char.utf8Size` (Rust `char::len_utf8`).
* Rust `char::is_whitespace` / `is_ascii_digit` / `to_ascii_lowercase` are
  modelled by `Char.isWhitespace` / `Char.isDigit` / `Char.toLower` (the Lean
  functions implement the same ASCII behaviour on the inputs that matter).
* `Pixels` (an `f32` newtype) is modelled as exact rationals `ℚ`; every claim
  about the geometry concerns order comparisons and exact small-integer
  arithmetic, not float rounding.
* `usize` byte offsets and `u32` line/column numbers are modelled as `Nat`
  (with the `u32` overflow check of `str::parse::<u32>` kept explicit).
-/

namespace GpuiText

/-- Characters of a string literal (Rust `&str` modelled as `List Char`). -/
def cs (s : String) : List Char := s.data

/-- UTF-8 byte length of a text, Rust `str::len`. -/
def utf8Len (text : List Char) : Nat := (text.map Char.utf8Size).sum

/-- A byte range, Rust `std::ops::Range<usize>`.  The exclusive upper end is
named `stop` because `end` is a Lean keyword. -/
structure Rg where
  start : Nat
  stop : Nat
deriving DecidableEq

/-- `Range::len()` for `usize` ranges (0 when `stop < start`). -/
def Rg.len (r : Rg) : Nat := r.stop - r.start

/-- Rust `str::contains(needle)`: some suffix of `hay` starts with `needle`.
For ASCII needles, byte-level and char-level occurrence coincide. -/
def hasSubstr (hay needle : List Char) : Bool :=
  hay.tails.any (fun t => needle.isPrefixOf t)

/-- Byte index of the last occurrence of `needle`, Rust `str::rfind`. -/
def rfindSub (hay needle : List Char) : Option Nat :=
  (List.range (hay.length + 1)).reverse.find? (fun i => needle.isPrefixOf (hay.drop i))

/-- Rust `str::rsplit_once(c)`: split around the last occurrence of `c`. -/
def rsplitOnce (c : Char) (l : List Char) : Option (List Char × List Char) :=
  match rfindSub l [c] with
  | some i => some (l.take i, l.drop (i + 1))
  | none => none

/-- Rust `str::split_once(c)`: split around the first occurrence of `c`. -/
def splitOnceChar (c : Char) (l : List Char) : Option (List Char × List Char) :=
  match l.findIdx? (fun x => x = c) with
  | some i => some (l.take i, l.drop (i + 1))
  | none => none

/-- Rust `str::trim` (both ends, whitespace). -/
def trimWs (l : List Char) : List Char :=
  ((l.dropWhile Char.isWhitespace).reverse.dropWhile Char.isWhitespace).reverse

/-! ## `utils.rs`: the token classifier -/

/-- `FileRef` from `utils.rs`: a recognized file reference. -/
structure FileRef where
  path : List Char
  line : Option Nat
  col : Option Nat
deriving DecidableEq

/-- `is_windows_drive` from `utils.rs`.  The source inspects the first three
bytes; for the byte patterns involved (`[A-Za-z]`, `:`, `/`, `\`, all ASCII)
this coincides with inspecting the first three characters. -/
def is_windows_drive (path : List Char) : Bool :=
  match path with
  | a :: b :: c :: _ => a.isAlpha && (b = ':' : Bool) && ((c = '/' : Bool) || (c = '\\' : Bool))
  | _ => false

/-- `has_explicit_path_cue` from `utils.rs`. -/
def has_explicit_path_cue (path : List Char) : Bool :=
  if path.isEmpty then false
  else if path = cs (".") || path = cs ("..") || path = cs ("~") then true
  else if hasSubstr path (cs ("://")) then false
  else if (cs ("./")).isPrefixOf path || (cs ("../")).isPrefixOf path
      || (cs ("~/")).isPrefixOf path then true
  else if path.head? = some '/' || path.head? = some '\\' then true
  else if is_windows_drive path then true
  else path.contains '/' || path.contains '\\'

/-- Numeric value of a decimal digit string. -/
def digitsToNat (l : List Char) : Nat :=
  l.foldl (fun acc c => acc * 10 + (c.toNat - ('0').toNat)) 0

/-- `parse_digits` from `utils.rs`: all-ASCII digits, parsed as `u32`
(rejecting overflow as `str::parse::<u32>` does) and required positive. -/
def parse_digits (value : List Char) : Option Nat :=
  if value.isEmpty || ! value.all Char.isDigit then none
  else if digitsToNat value < 2 ^ 32 then
    (if digitsToNat value > 0 then some (digitsToNat value) else none)
  else none

/-- The shared fall-through of the colon grammar of `parse_line_col_suffix`
(`utils.rs` lines 137-144): accept `before_last` as the path with the last
number as the line, provided the path cue holds. -/
def colon_fallback (beforeLast : List Char) (lastNum : Nat) : Option FileRef :=
  if has_explicit_path_cue beforeLast then some ⟨beforeLast, some lastNum, none⟩
  else none

/-- `parse_line_col_suffix` from `utils.rs`.  The source's early
`return None` on a cue-less path is rendered as the positive `if`; the
`split_once('C')` cases are expanded (`col_part.and_then(parse_digits)` is
`parse_digits colPart` in the `some` case and `none` otherwise). -/
def parse_line_col_suffix (raw : List Char) : Option FileRef :=
  match rfindSub raw (cs ("#L")) with
  | some idx =>
    if has_explicit_path_cue (raw.take idx) then
      match splitOnceChar 'C' (raw.drop (idx + 2)) with
      | some (linePart, colPart) =>
        match parse_digits linePart with
        | some line => some ⟨raw.take idx, some line, parse_digits colPart⟩
        | none => none
      | none =>
        match parse_digits (raw.drop (idx + 2)) with
        | some line => some ⟨raw.take idx, some line, none⟩
        | none => none
    else none
  | none =>
    match rsplitOnce ':' raw with
    | some (beforeLast, lastPart) =>
      match parse_digits lastPart with
      | none => none
      | some lastNum =>
        match rsplitOnce ':' beforeLast with
        | some (path, linePart) =>
          match parse_digits linePart with
          | some line =>
            if has_explicit_path_cue path then some ⟨path, some line, some lastNum⟩
            else none
          | none => colon_fallback beforeLast lastNum
        | none => colon_fallback beforeLast lastNum
    | none => none

/-- `parse_file_ref_token` from `utils.rs`. -/
def parse_file_ref_token (raw : List Char) : Option FileRef :=
  if raw.isEmpty then none
  else if hasSubstr raw (cs ("://")) then none
  else
    match parse_line_col_suffix raw with
    | some file => some file
    | none =>
      if has_explicit_path_cue raw then some ⟨raw, none, none⟩
      else none

/-- `parse_url_token` from `utils.rs`. -/
def parse_url_token (raw : List Char) : Option (List Char) :=
  let lower := raw.map Char.toLower
  if (cs ("http://")).isPrefixOf lower || (cs ("https://")).isPrefixOf lower then
    some raw
  else none

/-- `is_absolute_path` from `utils.rs`. -/
def is_absolute_path (path : List Char) : Bool :=
  if path.isEmpty then false
  else if path = cs ("~") || (cs ("~/")).isPrefixOf path then true
  else if path.head? = some '/' || path.head? = some '\\' then true
  else is_windows_drive path

/-- UTF-8 encoding of one character (Rust `str::as_bytes` per char). -/
def utf8Bytes (c : Char) : List Nat :=
  let n := c.toNat
  if n < 128 then [n]
  else if n < 2048 then [192 + n / 64, 128 + n % 64]
  else if n < 65536 then [224 + n / 4096, 128 + n / 64 % 64, 128 + n % 64]
  else [240 + n / 262144, 128 + n / 4096 % 64, 128 + n / 64 % 64, 128 + n % 64]

/-- UTF-8 byte sequence of a text, Rust `str::as_bytes`. -/
def strBytes (s : List Char) : List Nat := s.flatMap utf8Bytes

/-- Uppercase hexadecimal digit, as produced by the `{:02X}` format. -/
def hexDigitUpper (n : Nat) : Char :=
  if n < 10 then Char.ofNat (48 + n) else Char.ofNat (55 + n)

/-- `encode_uri_component` from `utils.rs`, over the byte sequence of the
input string.  The byte ranges in the match arms are `b'A'..=b'Z'`,
`b'a'..=b'z'`, `b'0'..=b'9'`, `b'-'`, `b'_'`, `b'.'`, `b'~'`. -/
def encode_uri_component : List Nat → List Char
  | [] => []
  | b :: rest =>
    (if (65 ≤ b ∧ b ≤ 90) ∨ (97 ≤ b ∧ b ≤ 122) ∨ (48 ≤ b ∧ b ≤ 57)
        ∨ b = 45 ∨ b = 95 ∨ b = 46 ∨ b = 126 then
      [Char.ofNat b]
    else
      ['%', hexDigitUpper (b / 16 % 16), hexDigitUpper (b % 16)]) ++
    encode_uri_component rest

/-- `split_whitespace_token_ranges` from `utils.rs`, with the `char_indices`
iteration fused into the recursion: `off` is the byte index of the head
character and `st` the pending token start (`start` in the source). -/
def split_ws_go (totalLen : Nat) : Nat → List Char → Option Nat → List Rg
  | _, [], some b => [⟨b, totalLen⟩]
  | _, [], none => []
  | off, c :: rest, st =>
    if c.isWhitespace then
      match st with
      | some b => ⟨b, off⟩ :: split_ws_go totalLen (off + c.utf8Size) rest none
      | none => split_ws_go totalLen (off + c.utf8Size) rest none
    else
      match st with
      | some b => split_ws_go totalLen (off + c.utf8Size) rest (some b)
      | none => split_ws_go totalLen (off + c.utf8Size) rest (some off)

/-- `split_whitespace_token_ranges` from `utils.rs`. -/
def split_whitespace_token_ranges (text : List Char) : List Rg :=
  split_ws_go (utf8Len text) 0 text none

/-- The characters of a text paired with their byte offsets,
Rust `str::char_indices` (used to state claims about byte positions). -/
def charIndicesFrom (off : Nat) : List Char → List (Nat × Char)
  | [] => []
  | c :: rest => (off, c) :: charIndicesFrom (off + c.utf8Size) rest

/-! ## C7: `encode_uri_component` -/

/-- The per-byte escaping that the specification describes: a byte in
`[A-Za-z0-9-_.~]` maps to itself, every other byte to `%` followed by the
byte's two uppercase hexadecimal digits.  (Stated from the spec's words, to
be compared with `encode_uri_component` as implemented.) -/
def specEscapeByte (b : Nat) : List Char :=
  if (65 ≤ b ∧ b ≤ 90) ∨ (97 ≤ b ∧ b ≤ 122) ∨ (48 ≤ b ∧ b ≤ 57)
      ∨ b = 45 ∨ b = 95 ∨ b = 46 ∨ b = 126 then
    [Char.ofNat b]
  else
    ['%', hexDigitUpper (b / 16), hexDigitUpper (b % 16)]

/-- C7: `encode_uri_component` maps each byte in `[A-Za-z0-9-_.~]` to itself
and every other byte to `%` plus that byte's two uppercase hex digits, acting
byte-wise; `encode_uri_component("a b/c") = "a%20b%2Fc"`, and the two-byte
character `é` produces one escape per byte (`"%C3%A9"`). -/
theorem C7_encode_uri_component (bs : List Nat) (hb : ∀ b ∈ bs, b < 256) :
    encode_uri_component bs = bs.flatMap specEscapeByte ∧
    encode_uri_component (strBytes (cs ("a b/c"))) = cs ("a%20b%2Fc") ∧
    encode_uri_component (strBytes (cs ("é"))) = cs ("%C3%A9") := by
  refine ⟨?_, by decide, by decide⟩
  induction bs with
  | nil => simp [encode_uri_component]
  | cons b rest ih =>
    have hb256 : b < 256 := hb b (by simp)
    have hrest := ih (fun x hx => hb x (by simp [hx]))
    have hmod : b / 16 % 16 = b / 16 := by
      have : b / 16 < 16 := by omega
      omega
    simp only [encode_uri_component, List.flatMap_cons, specEscapeByte, hrest, hmod]

/-- Witness for C7 at a concrete byte list. -/
theorem C7_encode_uri_component_witness :
    encode_uri_component [32, 65, 47] = [32, 65, 47].flatMap specEscapeByte :=
  (C7_encode_uri_component [32, 65, 47] (by decide)).1

/-! ## `inline.rs`: selection geometry -/

/-- `gpui::Point<Pixels>`, with `Pixels` modelled as `ℚ`. -/
structure Pt where
  x : ℚ
  y : ℚ
deriving DecidableEq

/-- `gpui::Size<Pixels>`. -/
structure Sz where
  width : ℚ
  height : ℚ
deriving DecidableEq

/-- `gpui::Bounds<Pixels>`: an origin and a size. -/
structure Bnds where
  origin : Pt
  size : Sz
deriving DecidableEq

/-- `Bounds::top()`. -/
def Bnds.top (b : Bnds) : ℚ := b.origin.y

/-- `Bounds::bottom()`. -/
def Bnds.bottom (b : Bnds) : ℚ := b.origin.y + b.size.height

/-- `Bounds::left()`. -/
def Bnds.left (b : Bnds) : ℚ := b.origin.x

/-- `Bounds::right()`. -/
def Bnds.right (b : Bnds) : ℚ := b.origin.x + b.size.width

/-- `point_in_text_selection` from `inline.rs` (`Pixels::half()` is division
by two). -/
def point_in_text_selection (pos : Pt) (char_width : ℚ) (bounds : Bnds)
    (line_height : ℚ) : Bool :=
  let top := bounds.top
  let bottom := bounds.bottom
  let left := bounds.left
  let right := bounds.right
  if pos.y + line_height < top ∨ pos.y ≥ bottom then false
  else if bottom - top ≤ line_height then
    decide (pos.x + char_width / 2 ≥ left ∧ pos.x + char_width / 2 ≤ right)
  else if pos.y ≤ top then
    decide (pos.x + char_width / 2 ≥ left)
  else if pos.y + line_height ≥ bottom then
    decide (pos.x + char_width / 2 ≤ right)
  else true

/-- Modelled from the spec: the character-offset selection range `[start, end)`
(`crate::input::Selection`, whose source is not part of the provided files;
`layout_selections` only uses its `start`/`end` fields).  The exclusive end is
named `stop` because `end` is a Lean keyword. -/
structure SelRange where
  start : Nat
  stop : Nat
deriving DecidableEq

/-- The per-character width estimate of `Inline::layout_selections`
(`inline.rs` lines 134-139): the default is half the line height, overridden
by the x-delta when the position at byte index `offset + 1` is known and has
the same `y`. -/
def char_width_at (posFor : Nat → Option Pt) (offset : Nat) (pos : Pt)
    (line_height : ℚ) : ℚ :=
  match posFor (offset + 1) with
  | some next_pos => if next_pos.y = pos.y then next_pos.x - pos.x else line_height / 2
  | none => line_height / 2

/-- The character scan of `Inline::layout_selections` (`inline.rs` lines
125-151).  `posFor` models `TextLayout::position_for_index`; the GUI plumbing
around the scan (global state, selectable flags) is outside the model. -/
def layout_selections_go (posFor : Nat → Option Pt) (bounds : Bnds)
    (line_height : ℚ) : List Char → Nat → Option SelRange → Option SelRange
  | [], _, sel => sel
  | c :: rest, offset, sel =>
    match posFor offset with
    | none => layout_selections_go posFor bounds line_height rest (offset + c.utf8Size) sel
    | some pos =>
      let cw := char_width_at posFor offset pos line_height
      let sel2 :=
        if point_in_text_selection pos cw bounds line_height then
          match sel with
          | none => some ⟨offset, offset + c.utf8Size⟩
          | some s => some ⟨s.start, offset + c.utf8Size⟩
        else sel
      layout_selections_go posFor bounds line_height rest (offset + c.utf8Size) sel2

/-- The selection scan over a whole text. -/
def layout_selections (posFor : Nat → Option Pt) (bounds : Bnds)
    (line_height : ℚ) (text : List Char) : Option SelRange :=
  layout_selections_go posFor bounds line_height text 0 none

/-! ## C2: horizontal inclusion rules of `point_in_text_selection` -/

/-- C2: for a character that passes the vertical test, single-line bounds
(height at most the line height) include it iff its horizontal midpoint lies
in `[left, right]`; multi-line bounds include a first-row character
(`pos.y ≤ top`) iff its midpoint is at/after `left`, a last-row character
(`pos.y + line_height ≥ bottom`) iff its midpoint is at/before `right`, and
an interior-row character unconditionally. -/
theorem C2_point_in_text_selection (pos : Pt) (w : ℚ) (bounds : Bnds) (h : ℚ)
    (hv : ¬ (pos.y + h < bounds.top ∨ pos.y ≥ bounds.bottom)) :
    (bounds.size.height ≤ h →
      (point_in_text_selection pos w bounds h = true ↔
        (bounds.left ≤ pos.x + w / 2 ∧ pos.x + w / 2 ≤ bounds.right))) ∧
    (h < bounds.size.height →
      ((pos.y ≤ bounds.top →
          (point_in_text_selection pos w bounds h = true ↔
            bounds.left ≤ pos.x + w / 2)) ∧
       (bounds.bottom ≤ pos.y + h →
          (point_in_text_selection pos w bounds h = true ↔
            pos.x + w / 2 ≤ bounds.right)) ∧
       (bounds.top < pos.y → pos.y + h < bounds.bottom →
          point_in_text_selection pos w bounds h = true))) := by
  have hbt : bounds.bottom - bounds.top = bounds.size.height := by
    simp only [Bnds.bottom, Bnds.top]
    ring
  unfold point_in_text_selection
  rw [if_neg hv]
  constructor
  · intro hsingle
    rw [if_pos (by rw [hbt]; exact hsingle)]
    simp [decide_eq_true_eq, and_comm, ge_iff_le]
  · intro hmulti
    rw [if_neg (by rw [hbt]; exact not_le.mpr hmulti)]
    refine ⟨?_, ?_, ?_⟩
    · intro habove
      rw [if_pos habove]
      simp [decide_eq_true_eq, ge_iff_le]
    · intro hbelow
      have habove : ¬ pos.y ≤ bounds.top := by
        intro hab
        have h1 : bounds.bottom - bounds.top > h := by linarith [hbt.symm ▸ hmulti]
        linarith
      rw [if_neg habove, if_pos (by linarith)]
      simp [decide_eq_true_eq]
    · intro h1 h2
      rw [if_neg (not_le.mpr h1), if_neg (not_le.mpr (by linarith))]

/-- Witness for C2: a concrete single-line instance. -/
theorem C2_point_in_text_selection_witness :
    point_in_text_selection ⟨0, 0⟩ 10 ⟨⟨0, 0⟩, ⟨100, 10⟩⟩ 10 = true ↔
      (Bnds.left ⟨⟨0, 0⟩, ⟨100, 10⟩⟩ ≤ (0 : ℚ) + 10 / 2 ∧
        (0 : ℚ) + 10 / 2 ≤ Bnds.right ⟨⟨0, 0⟩, ⟨100, 10⟩⟩) :=
  (C2_point_in_text_selection ⟨0, 0⟩ 10 ⟨⟨0, 0⟩, ⟨100, 10⟩⟩ 10
      (by norm_num [Bnds.top, Bnds.bottom])).1 (by norm_num)

/-! ## C3: vertical rejection of `point_in_text_selection` -/

/-- Counterexample to C3 as stated: with bounds `[10, 20)` vertically and line
height `10`, the character at `y = 0` has vertical span `[0, 10)`, disjoint
from the bounds' vertical extent (`pos.y + line_height = top`), yet the
function returns `true` (the code's rejection test uses the strict comparison
`pos.y + line_height < top`). -/
theorem C3_counterexample :
    point_in_text_selection ⟨50, 0⟩ 0 ⟨⟨50, 10⟩, ⟨100, 10⟩⟩ 10 = true ∧
    (0 : ℚ) + 10 ≤ Bnds.top ⟨⟨50, 10⟩, ⟨100, 10⟩⟩ := by
  constructor
  · norm_num [point_in_text_selection, Bnds.top, Bnds.bottom, Bnds.left, Bnds.right]
  · norm_num [Bnds.top]

/-- C3 (amended): `point_in_text_selection` returns `false` whenever
`pos.y + line_height < bounds.top` or `pos.y ≥ bounds.bottom`; this is the
code's vertical rejection, which is the claimed span-overlap test except that
a character whose span merely touches the top edge
(`pos.y + line_height = top`) is not rejected. -/
theorem C3_vertical_rejection (pos : Pt) (w : ℚ) (bounds : Bnds) (h : ℚ)
    (hv : pos.y + h < bounds.top ∨ pos.y ≥ bounds.bottom) :
    point_in_text_selection pos w bounds h = false := by
  unfold point_in_text_selection
  rw [if_pos hv]

/-- Witness for the amended C3 at a concrete input. -/
theorem C3_vertical_rejection_witness :
    point_in_text_selection ⟨50, 200⟩ 0 ⟨⟨50, 10⟩, ⟨100, 10⟩⟩ 10 = false :=
  C3_vertical_rejection ⟨50, 200⟩ 0 ⟨⟨50, 10⟩, ⟨100, 10⟩⟩ 10
    (Or.inr (by norm_num [Bnds.bottom]))

/-! ## C9: the per-character width estimate of the selection scan -/

/-- A concrete position lookup exhibiting the C9 counterexample: positions are
known at byte offsets 0 and 2 only (as for the two-byte character `é` followed
by an ASCII character). -/
def c9PosFor : Nat → Option Pt := fun i =>
  if i = 0 then some ⟨0, 0⟩ else if i = 2 then some ⟨4, 0⟩ else none

/-- Counterexample to C9 as stated: the character `é` at byte offset 0 has
`len_utf8 = 2`, so the next character sits at byte offset 2; its position
`(4, 0)` is known and on the same visual line as `(0, 0)`, so the claim
demands width `4 - 0 = 4`.  But the code queries byte offset `0 + 1` (not the
next character's offset), finds nothing, and uses half the line height
`10 / 2 = 5`. -/
theorem C9_counterexample :
    ('é').utf8Size = 2 ∧
    c9PosFor (0 + ('é').utf8Size) = some ⟨4, 0⟩ ∧
    char_width_at c9PosFor 0 ⟨0, 0⟩ 10 = 10 / 2 ∧
    ((4 : ℚ) - 0 ≠ 10 / 2) := by
  refine ⟨by decide, ?_, ?_, by norm_num⟩
  · simp [c9PosFor, show ('é').utf8Size = 2 from by decide]
  · norm_num [char_width_at, c9PosFor]

/-- C9 (amended): in the selection scan, the width used for the character at
byte offset `o` with known position `pos` is the x-delta to the position at
byte index `o + 1` (one byte past the character's start, not the next
character's start) when that position is known and has the same `y`; in every
other case it is half the line height.  `layout_selections_go` feeds exactly
this width into `point_in_text_selection`. -/
theorem C9_char_width (posFor : Nat → Option Pt) (offset : Nat) (pos : Pt)
    (lh : ℚ) :
    (posFor (offset + 1) = none → char_width_at posFor offset pos lh = lh / 2) ∧
    (∀ np, posFor (offset + 1) = some np → np.y = pos.y →
      char_width_at posFor offset pos lh = np.x - pos.x) ∧
    (∀ np, posFor (offset + 1) = some np → np.y ≠ pos.y →
      char_width_at posFor offset pos lh = lh / 2) := by
  refine ⟨fun hn => ?_, fun np hs hy => ?_, fun np hs hy => ?_⟩
  · simp [char_width_at, hn]
  · simp [char_width_at, hs, hy]
  · simp [char_width_at, hs, hy]

/-- Witness for the amended C9 at a concrete input. -/
theorem C9_char_width_witness :
    char_width_at c9PosFor 0 ⟨0, 0⟩ 10 = 10 / 2 :=
  (C9_char_width c9PosFor 0 ⟨0, 0⟩ 10).1 (by norm_num [c9PosFor])

/-! ## `markdown.rs`: inline-code linkification -/

/-- Modelled from the spec (§3): `LinkMark` from `text/node.rs`, whose source
file is not among the provided sources.  Only the fields that
`build_inline_code_marks` sets are modelled (`url`, `requires_modifiers`,
`decorate`); the optional title/identifier play no role here. -/
structure LinkMark where
  url : List Char
  requires_modifiers : Bool
  decorate : Bool
deriving DecidableEq

/-- Modelled from the spec (§3): `TextMark` from `text/node.rs` — boolean
style flags plus an optional `LinkMark`. -/
structure TextMark where
  bold : Bool
  italic : Bool
  strikethrough : Bool
  code : Bool
  link : Option LinkMark
deriving DecidableEq

/-- `TextMark::default().code()`: only the `code` flag set. -/
def codeMark : TextMark := ⟨false, false, false, true, none⟩

/-- `TextMark::default().link(l)`: only the link set. -/
def linkOnlyMark (l : LinkMark) : TextMark := ⟨false, false, false, false, some l⟩

/-- `CodeTokenLinks` from `style.rs`. -/
structure CodeTokenLinks where
  enabled : Bool
  worktree_id : Option (List Char)

/-- Substring of `text` given by the byte range `[s, e)` (Rust `&text[s..e]`
for ranges aligned to character boundaries). -/
def sliceBytes (text : List Char) (s e : Nat) : List Char :=
  (charIndicesFrom 0 text).filterMap
    (fun p => if s ≤ p.1 ∧ p.1 < e then some p.2 else none)

/-- Decimal representation, Rust `u32` `Display` (via `format!`). -/
def natRepr (n : Nat) : List Char := Nat.toDigits 10 n

/-- `Vec::join("&")` over the query parameters. -/
def joinAmp : List (List Char) → List Char
  | [] => []
  | [p] => p
  | p :: q :: rest => p ++ '&' :: joinAmp (q :: rest)

/-- `build_ctx_open_url` from `markdown.rs`. -/
def build_ctx_open_url (file_ref : FileRef) (worktree_id : Option (List Char)) :
    Option (List Char) :=
  let base : Option (List (List Char)) :=
    if is_absolute_path file_ref.path then
      some [cs ("path=") ++ encode_uri_component (strBytes file_ref.path)]
    else
      match worktree_id with
      | none => none
      | some wt =>
        some [cs ("worktreeId=") ++ encode_uri_component (strBytes wt),
              cs ("file=") ++ encode_uri_component (strBytes file_ref.path)]
  match base with
  | none => none
  | some params0 =>
    let params1 := params0 ++ (match file_ref.line with
      | some l => [cs ("line=") ++ natRepr l]
      | none => [])
    let params2 := params1 ++ (match file_ref.col with
      | some c => [cs ("col=") ++ natRepr c]
      | none => [])
    some (cs ("ctx://open?") ++ joinAmp params2)

/-- The loop body of `build_inline_code_marks` for one token range: the link
marks contributed by that token (empty when the token is skipped or not
linkified). -/
def token_link_marks (text : List Char) (options : CodeTokenLinks) (range : Rg) :
    List (Rg × TextMark) :=
  if range.stop ≤ range.start then []
  else
    let token := sliceBytes text range.start range.stop
    if (trimWs token).isEmpty then []
    else
      match parse_url_token token with
      | some url => [(range, linkOnlyMark ⟨url, true, false⟩)]
      | none =>
        match parse_file_ref_token token with
        | some file_ref =>
          if options.worktree_id.isSome || is_absolute_path file_ref.path then
            match build_ctx_open_url file_ref options.worktree_id with
            | some url => [(range, linkOnlyMark ⟨url, true, false⟩)]
            | none => []
          else []
        | none => []

/-- `build_inline_code_marks` from `markdown.rs`. -/
def build_inline_code_marks (text : List Char) (options : CodeTokenLinks) :
    List (Rg × TextMark) :=
  let marks := [(⟨0, utf8Len text⟩, codeMark)]
  if !options.enabled || text.isEmpty then marks
  else marks ++ (split_whitespace_token_ranges text).flatMap (token_link_marks text options)

/-! ## Helper lemmas about the token classifier -/

/-- `parse_digits` only returns positive numbers. -/
theorem parse_digits_pos (v : List Char) (n : Nat) (h : parse_digits v = some n) :
    0 < n := by
  unfold parse_digits at h
  split at h
  · exact absurd h (by simp)
  · split at h
    · split at h
      · cases h
        omega
      · exact absurd h (by simp)
    · exact absurd h (by simp)

/-- `colon_fallback` invariant: cue-bearing path, the given line, no column. -/
theorem colon_fallback_inv (bl : List Char) (ln : Nat) (fr : FileRef)
    (h : colon_fallback bl ln = some fr) :
    has_explicit_path_cue fr.path = true ∧ fr.line = some ln ∧ fr.col = none := by
  unfold colon_fallback at h
  split at h
  · rename_i hcue
    cases h
    exact ⟨hcue, rfl, rfl⟩
  · exact absurd h (by simp)

/-- Every file reference produced by `parse_line_col_suffix` has a
cue-bearing path, a positive line, and a positive column when present. -/
theorem parse_line_col_suffix_inv (raw : List Char) (fr : FileRef)
    (h : parse_line_col_suffix raw = some fr) :
    has_explicit_path_cue fr.path = true ∧
    (∃ l, fr.line = some l ∧ 0 < l) ∧
    (∀ c, fr.col = some c → 0 < c) := by
  unfold parse_line_col_suffix at h
  split at h
  · rename_i idx heq
    split at h
    · rename_i hcue
      split at h
      · rename_i linePart colPart heq2
        split at h
        · rename_i line hline
          cases h
          exact ⟨hcue, ⟨line, rfl, parse_digits_pos _ _ hline⟩,
            fun c hc => parse_digits_pos _ _ hc⟩
        · exact absurd h (by simp)
      · split at h
        · rename_i line hline
          cases h
          exact ⟨hcue, ⟨line, rfl, parse_digits_pos _ _ hline⟩, fun c hc => by cases hc⟩
        · exact absurd h (by simp)
    · exact absurd h (by simp)
  · split at h
    · rename_i beforeLast lastPart hsplit
      split at h
      · exact absurd h (by simp)
      · rename_i lastNum hlast
        split at h
        · rename_i path linePart hsplit2
          split at h
          · rename_i line hline
            split at h
            · rename_i hcue
              cases h
              exact ⟨hcue, ⟨line, rfl, parse_digits_pos _ _ hline⟩,
                fun c hc => by cases hc; exact parse_digits_pos _ _ hlast⟩
            · exact absurd h (by simp)
          · obtain ⟨h1, h2, h3⟩ := colon_fallback_inv _ _ _ h
            exact ⟨h1, ⟨lastNum, h2, parse_digits_pos _ _ hlast⟩,
              fun c hc => by rw [h3] at hc; cases hc⟩
        · obtain ⟨h1, h2, h3⟩ := colon_fallback_inv _ _ _ h
          exact ⟨h1, ⟨lastNum, h2, parse_digits_pos _ _ hlast⟩,
            fun c hc => by rw [h3] at hc; cases hc⟩
    · exact absurd h (by simp)

/-- Every file reference produced by `parse_file_ref_token` has a
cue-bearing path, positive line/column when present, and a line whenever a
column is present. -/
theorem parse_file_ref_token_inv (raw : List Char) (fr : FileRef)
    (h : parse_file_ref_token raw = some fr) :
    has_explicit_path_cue fr.path = true ∧
    (fr.col.isSome → fr.line.isSome) ∧
    (∀ l, fr.line = some l → 0 < l) ∧
    (∀ c, fr.col = some c → 0 < c) := by
  unfold parse_file_ref_token at h
  split at h
  · exact absurd h (by simp)
  · split at h
    · exact absurd h (by simp)
    · split at h
      · rename_i fl hfl
        cases h
        obtain ⟨h1, ⟨l, hl, hlpos⟩, h3⟩ := parse_line_col_suffix_inv raw fr hfl
        refine ⟨h1, fun _ => by simp [hl], fun l2 hl2 => ?_, h3⟩
        rw [hl] at hl2
        cases hl2
        exact hlpos
      · split at h
        · rename_i hcue
          cases h
          exact ⟨hcue, by simp, by simp, by simp⟩
        · exact absurd h (by simp)

/-! ## Helper lemmas about `build_ctx_open_url` -/

/-- The `[&line=<n>][&col=<m>]` tail of a `ctx://open?` URL, as appended by
`build_ctx_open_url` for the given file reference. -/
def lineColQuery (fr : FileRef) : List Char :=
  (match fr.line with
   | some l => cs ("&line=") ++ natRepr l
   | none => []) ++
  (match fr.col with
   | some c => cs ("&col=") ++ natRepr c
   | none => [])

theorem amp_line_eq : cs ("&line=") = '&' :: cs ("line=") := by decide

theorem amp_col_eq : cs ("&col=") = '&' :: cs ("col=") := by decide

/-- Shape of `build_ctx_open_url` for an absolute path. -/
theorem bcu_abs (fr : FileRef) (wt : Option (List Char))
    (habs : is_absolute_path fr.path = true) :
    build_ctx_open_url fr wt =
      some (cs ("ctx://open?") ++
        (cs ("path=") ++ encode_uri_component (strBytes fr.path) ++ lineColQuery fr)) := by
  rcases hline : fr.line with _ | l <;> rcases hcol : fr.col with _ | c <;>
    simp [build_ctx_open_url, habs, hline, hcol, lineColQuery, joinAmp,
      amp_line_eq, amp_col_eq, List.append_assoc]

/-- Shape of `build_ctx_open_url` for a relative path with a worktree id. -/
theorem bcu_rel (fr : FileRef) (id0 : List Char)
    (habs : is_absolute_path fr.path = false) :
    build_ctx_open_url fr (some id0) =
      some (cs ("ctx://open?") ++
        (cs ("worktreeId=") ++ encode_uri_component (strBytes id0) ++
          ('&' :: (cs ("file=") ++ encode_uri_component (strBytes fr.path))) ++
          lineColQuery fr)) := by
  rcases hline : fr.line with _ | l <;> rcases hcol : fr.col with _ | c <;>
    simp [build_ctx_open_url, habs, hline, hcol, lineColQuery, joinAmp,
      amp_line_eq, amp_col_eq, List.append_assoc]

/-- `build_ctx_open_url` fails exactly for a relative path with no worktree. -/
theorem bcu_none (fr : FileRef) (wt : Option (List Char)) :
    build_ctx_open_url fr wt = none ↔
      (is_absolute_path fr.path = false ∧ wt = none) := by
  rcases wt with _ | id0 <;> by_cases habs : is_absolute_path fr.path <;>
    simp [build_ctx_open_url, habs]

/-! ## C5: `parse_file_ref_token` -/

/-- Counterexample to C5 as stated: the token `"~:5"` lacks an explicit path
cue (it is none of `.`, `..`, `~`, has no leading `./`, `../`, `~/`, `/`,
`\`, no drive letter, and contains no slash), yet `parse_file_ref_token`
matches it, because the cue is checked on the pre-suffix path portion `"~"`,
which is cue-bearing. -/
theorem C5_counterexample :
    has_explicit_path_cue (cs ("~:5")) = false ∧
    parse_file_ref_token (cs ("~:5")) = some ⟨cs ("~"), some 5, none⟩ := by
  decide

/-- C5 (amended): `parse_file_ref_token` returns no match for every token
containing `"://"`; every match it returns has a cue-bearing path, so a token
none of whose candidate path portions satisfies the cue yields none (in
particular `"a:b"` yields none, though a token such as `"~:5"` whose
pre-suffix path portion is cue-bearing still matches); it parses trailing
colon-separated positive integers and GitHub-style `#L` anchors, so
`"src/main.rs:42:7"` yields `{path: "src/main.rs", line: 42, col: 7}` and
`"./README.md#L10"` yields `{path: "./README.md", line: 10, col: none}`. -/
theorem C5_parse_file_ref_token :
    (∀ raw, hasSubstr raw (cs ("://")) = true → parse_file_ref_token raw = none) ∧
    (∀ raw fr, parse_file_ref_token raw = some fr →
      has_explicit_path_cue fr.path = true) ∧
    parse_file_ref_token (cs ("src/main.rs:42:7")) =
      some ⟨cs ("src/main.rs"), some 42, some 7⟩ ∧
    parse_file_ref_token (cs ("a:b")) = none ∧
    parse_file_ref_token (cs ("./README.md#L10")) =
      some ⟨cs ("./README.md"), some 10, none⟩ := by
  refine ⟨?_, ?_, by decide, by decide, by decide⟩
  · intro raw hsub
    simp [parse_file_ref_token, hsub]
  · intro raw fr h
    exact (parse_file_ref_token_inv raw fr h).1

/-- Witness for C5 at a concrete token containing `"://"`. -/
theorem C5_parse_file_ref_token_witness :
    parse_file_ref_token (cs ("x://y")) = none :=
  C5_parse_file_ref_token.1 (cs ("x://y")) (by decide)

/-! ## C6: `build_ctx_open_url` -/

/-- C6: `build_ctx_open_url` returns none iff the path is not absolute and no
worktree id is given; otherwise the URL is exactly `ctx://open?` followed by
`path=<enc>` for an absolute path, else `worktreeId=<enc>&file=<enc>`, with
`&line=<n>` then `&col=<m>` appended when present, in that order
(`lineColQuery`). -/
theorem C6_build_ctx_open_url (fr : FileRef) (wt : Option (List Char)) :
    (build_ctx_open_url fr wt = none ↔
      (is_absolute_path fr.path = false ∧ wt = none)) ∧
    (is_absolute_path fr.path = true →
      build_ctx_open_url fr wt =
        some (cs ("ctx://open?") ++
          (cs ("path=") ++ encode_uri_component (strBytes fr.path) ++
            lineColQuery fr))) ∧
    (∀ id0, is_absolute_path fr.path = false → wt = some id0 →
      build_ctx_open_url fr wt =
        some (cs ("ctx://open?") ++
          (cs ("worktreeId=") ++ encode_uri_component (strBytes id0) ++
            ('&' :: (cs ("file=") ++ encode_uri_component (strBytes fr.path))) ++
            lineColQuery fr))) :=
  ⟨bcu_none fr wt, fun habs => bcu_abs fr wt habs,
    fun id0 habs hwt => by rw [hwt]; exact bcu_rel fr id0 habs⟩

/-- Witness for C6 at a concrete file reference. -/
theorem C6_build_ctx_open_url_witness :
    build_ctx_open_url ⟨cs ("/a"), some 3, none⟩ none =
      some (cs ("ctx://open?") ++
        (cs ("path=") ++ encode_uri_component (strBytes (cs ("/a"))) ++
          lineColQuery ⟨cs ("/a"), some 3, none⟩)) :=
  (C6_build_ctx_open_url ⟨cs ("/a"), some 3, none⟩ none).2.1 (by decide)

/-! ## C10: the `FileRef` invariant and its consequence for URLs -/

/-- C10: every `FileRef` from `parse_file_ref_token` has a line whenever it
has a column, and any line/column present is positive; consequently a
`ctx://open?` URL built from it carries `&col=<c>` only immediately after
`&line=<l>`. -/
theorem C10_file_ref_invariant (raw : List Char) (fr : FileRef)
    (h : parse_file_ref_token raw = some fr) :
    (fr.col.isSome → fr.line.isSome) ∧
    (∀ l, fr.line = some l → 0 < l) ∧
    (∀ c, fr.col = some c → 0 < c) ∧
    (∀ wt url c, fr.col = some c → build_ctx_open_url fr wt = some url →
      ∃ l p, fr.line = some l ∧
        url = p ++ (cs ("&line=") ++ natRepr l ++ (cs ("&col=") ++ natRepr c))) := by
  obtain ⟨hcue, h2, h3, h4⟩ := parse_file_ref_token_inv raw fr h
  refine ⟨h2, h3, h4, ?_⟩
  intro wt url c hc hurl
  obtain ⟨l, hl⟩ := Option.isSome_iff_exists.mp (h2 (by simp [hc]))
  have hquery : lineColQuery fr =
      (cs ("&line=") ++ natRepr l) ++ (cs ("&col=") ++ natRepr c) := by
    simp [lineColQuery, hl, hc]
  by_cases habs : is_absolute_path fr.path
  · rw [bcu_abs fr wt habs, Option.some_inj] at hurl
    exact ⟨l, cs ("ctx://open?") ++
        (cs ("path=") ++ encode_uri_component (strBytes fr.path)), hl,
      by rw [← hurl, hquery]; simp [List.append_assoc]⟩
  · rcases wt with _ | id0
    · rw [(bcu_none fr none).mpr ⟨by simpa using habs, rfl⟩] at hurl
      cases hurl
    · rw [bcu_rel fr id0 (by simpa using habs), Option.some_inj] at hurl
      exact ⟨l, cs ("ctx://open?") ++
          (cs ("worktreeId=") ++ encode_uri_component (strBytes id0) ++
            ('&' :: (cs ("file=") ++ encode_uri_component (strBytes fr.path)))), hl,
        by rw [← hurl, hquery]; simp [List.append_assoc]⟩

/-- Witness for C10 at a concrete token with line and column: the parsed
line of `"a/b:2:3"` is positive. -/
theorem C10_file_ref_invariant_witness : 0 < 2 :=
  (C10_file_ref_invariant (cs ("a/b:2:3")) ⟨cs ("a/b"), some 2, some 3⟩
    (by decide)).2.1 2 rfl

/-! ## Helper lemmas about `split_whitespace_token_ranges` -/

/-- Byte offsets listed by `charIndicesFrom` are at least the start offset. -/
theorem charIndicesFrom_ge (l : List Char) :
    ∀ off, ∀ p ∈ charIndicesFrom off l, off ≤ p.1 := by
  induction l with
  | nil =>
    intro off p hp
    simp [charIndicesFrom] at hp
  | cons c rest ih =>
    intro off p hp
    rcases List.mem_cons.mp hp with rfl | hp2
    · exact le_refl off
    · have := ih (off + c.utf8Size) p hp2
      omega

/-- `utf8Len` of a cons. -/
theorem utf8Len_cons (c : Char) (rest : List Char) :
    utf8Len (c :: rest) = c.utf8Size + utf8Len rest := by
  simp [utf8Len]

/-- Bounds invariant of `split_ws_go`: every produced range is nonempty,
starts at or after the pending start (or the current offset), and stops
within the text. -/
theorem split_ws_go_bounds (l : List Char) :
    ∀ (tl off : Nat) (st : Option Nat),
    tl = off + utf8Len l → (∀ b, st = some b → b < off) →
    ∀ r ∈ split_ws_go tl off l st,
      st.getD off ≤ r.start ∧ r.start < r.stop ∧ r.stop ≤ tl := by
  induction l with
  | nil =>
    intro tl off st htl hst r hr
    have h0 : utf8Len ([] : List Char) = 0 := by simp [utf8Len]
    rcases st with _ | b
    · simp [split_ws_go] at hr
    · simp only [split_ws_go, List.mem_singleton] at hr
      subst hr
      have hb := hst b rfl
      simp only [Option.getD_some]
      omega
  | cons c rest ih =>
    intro tl off st htl hst r hr
    have hsz : 0 < c.utf8Size := Char.utf8Size_pos c
    have htl2 : tl = (off + c.utf8Size) + utf8Len rest := by
      rw [utf8Len_cons] at htl
      omega
    by_cases hws : c.isWhitespace
    · rcases st with _ | b
      · simp only [split_ws_go, if_pos hws] at hr
        have h2 := ih tl (off + c.utf8Size) none htl2 (by simp) r hr
        simp only [Option.getD_none] at h2 ⊢
        omega
      · simp only [split_ws_go, if_pos hws] at hr
        rcases List.mem_cons.mp hr with rfl | hr2
        · have hb := hst b rfl
          simp only [Option.getD_some]
          refine ⟨le_refl b, hb, ?_⟩
          omega
        · have h2 := ih tl (off + c.utf8Size) none htl2 (by simp) r hr2
          simp only [Option.getD_none] at h2
          have hb := hst b rfl
          simp only [Option.getD_some]
          exact ⟨by omega, h2.2.1, h2.2.2⟩
    · rcases st with _ | b
      · simp only [split_ws_go, if_neg hws] at hr
        have h2 := ih tl (off + c.utf8Size) (some off) htl2
          (fun b2 hb2 => by cases hb2; omega) r hr
        simp only [Option.getD_some] at h2
        simp only [Option.getD_none]
        exact ⟨h2.1, h2.2⟩
      · simp only [split_ws_go, if_neg hws] at hr
        have hb := hst b rfl
        have h2 := ih tl (off + c.utf8Size) (some b) htl2
          (fun b2 hb2 => by cases hb2; omega) r hr
        simpa using h2

/-- Chain invariant of `split_ws_go`: produced ranges are non-overlapping and
strictly increasing. -/
theorem split_ws_go_chain (l : List Char) :
    ∀ (tl off : Nat) (st : Option Nat),
    tl = off + utf8Len l → (∀ b, st = some b → b < off) →
    List.Chain' (fun a b => a.stop ≤ b.start ∧ a.start < b.start)
      (split_ws_go tl off l st) := by
  induction l with
  | nil =>
    intro tl off st htl hst
    rcases st with _ | b <;> simp [split_ws_go]
  | cons c rest ih =>
    intro tl off st htl hst
    have hsz : 0 < c.utf8Size := Char.utf8Size_pos c
    have htl2 : tl = (off + c.utf8Size) + utf8Len rest := by
      rw [utf8Len_cons] at htl
      omega
    by_cases hws : c.isWhitespace
    · rcases st with _ | b
      · simp only [split_ws_go, if_pos hws]
        exact ih tl (off + c.utf8Size) none htl2 (by simp)
      · simp only [split_ws_go, if_pos hws]
        rw [List.chain'_cons']
        refine ⟨?_, ih tl (off + c.utf8Size) none htl2 (by simp)⟩
        intro y hy
        have hmem : y ∈ split_ws_go tl (off + c.utf8Size) rest none :=
          List.mem_of_mem_head? hy
        have h2 := split_ws_go_bounds rest tl (off + c.utf8Size) none htl2
          (by simp) y hmem
        simp only [Option.getD_none] at h2
        have hb := hst b rfl
        exact ⟨show off ≤ y.start by omega, show b < y.start by omega⟩
    · rcases st with _ | b
      · simp only [split_ws_go, if_neg hws]
        exact ih tl (off + c.utf8Size) (some off) htl2
          (fun b2 hb2 => by cases hb2; omega)
      · simp only [split_ws_go, if_neg hws]
        exact ih tl (off + c.utf8Size) (some b) htl2
          (fun b2 hb2 => by cases hb2; exact lt_trans (hst b rfl) (by omega))

/-- Pending-start invariant of `split_ws_go`: a pending token start always
materializes as a range reaching at least the current offset. -/
theorem split_ws_go_pending (l : List Char) :
    ∀ (tl off : Nat) (b : Nat),
    tl = off + utf8Len l →
    ∃ e, off ≤ e ∧ (⟨b, e⟩ : Rg) ∈ split_ws_go tl off l (some b) := by
  induction l with
  | nil =>
    intro tl off b htl
    refine ⟨tl, ?_, by simp [split_ws_go]⟩
    simp [utf8Len] at htl
    omega
  | cons c rest ih =>
    intro tl off b htl
    have hsz : 0 < c.utf8Size := Char.utf8Size_pos c
    have htl2 : tl = (off + c.utf8Size) + utf8Len rest := by
      rw [utf8Len_cons] at htl
      omega
    by_cases hws : c.isWhitespace
    · exact ⟨off, le_refl off, by simp [split_ws_go, if_pos hws]⟩
    · obtain ⟨e, he, hmem⟩ := ih tl (off + c.utf8Size) b htl2
      exact ⟨e, by omega, by simpa [split_ws_go, if_neg hws] using hmem⟩

/-- Inside invariant of `split_ws_go`: no whitespace character lies inside a
produced range. -/
theorem split_ws_go_inside (l : List Char) :
    ∀ (tl off : Nat) (st : Option Nat),
    tl = off + utf8Len l → (∀ b, st = some b → b < off) →
    ∀ r ∈ split_ws_go tl off l st, ∀ p ∈ charIndicesFrom off l,
      r.start ≤ p.1 → p.1 < r.stop → p.2.isWhitespace = false := by
  induction l with
  | nil =>
    intro tl off st htl hst r hr p hp
    simp [charIndicesFrom] at hp
  | cons c rest ih =>
    intro tl off st htl hst r hr p hp hs he
    have hsz : 0 < c.utf8Size := Char.utf8Size_pos c
    have htl2 : tl = (off + c.utf8Size) + utf8Len rest := by
      rw [utf8Len_cons] at htl
      omega
    by_cases hws : c.isWhitespace
    · rcases st with _ | b
      · simp only [split_ws_go, if_pos hws] at hr
        rcases List.mem_cons.mp hp with rfl | hp2
        · have h2 := split_ws_go_bounds rest tl (off + c.utf8Size) none htl2
            (by simp) r hr
          simp only [Option.getD_none] at h2
          omega
        · exact ih tl (off + c.utf8Size) none htl2 (by simp) r hr p hp2 hs he
      · simp only [split_ws_go, if_pos hws] at hr
        rcases List.mem_cons.mp hr with rfl | hr2
        · rcases List.mem_cons.mp hp with rfl | hp2
          · have h2 : off < off := he
            omega
          · have h3 := charIndicesFrom_ge rest (off + c.utf8Size) p hp2
            have h2 : p.1 < off := he
            omega
        · rcases List.mem_cons.mp hp with rfl | hp2
          · have h2 := split_ws_go_bounds rest tl (off + c.utf8Size) none htl2
              (by simp) r hr2
            simp only [Option.getD_none] at h2
            omega
          · exact ih tl (off + c.utf8Size) none htl2 (by simp) r hr2 p hp2 hs he
    · rcases st with _ | b
      · simp only [split_ws_go, if_neg hws] at hr
        rcases List.mem_cons.mp hp with rfl | hp2
        · simpa using hws
        · exact ih tl (off + c.utf8Size) (some off) htl2
            (fun b2 hb2 => by cases hb2; omega) r hr p hp2 hs he
      · simp only [split_ws_go, if_neg hws] at hr
        rcases List.mem_cons.mp hp with rfl | hp2
        · simpa using hws
        · exact ih tl (off + c.utf8Size) (some b) htl2
            (fun b2 hb2 => by cases hb2; exact lt_trans (hst b rfl) (by omega))
            r hr p hp2 hs he

/-- Outside invariant of `split_ws_go`: every character covered by no
produced range is whitespace. -/
theorem split_ws_go_outside (l : List Char) :
    ∀ (tl off : Nat) (st : Option Nat),
    tl = off + utf8Len l → (∀ b, st = some b → b < off) →
    ∀ p ∈ charIndicesFrom off l,
      (∀ r ∈ split_ws_go tl off l st, ¬(r.start ≤ p.1 ∧ p.1 < r.stop)) →
      p.2.isWhitespace = true := by
  induction l with
  | nil =>
    intro tl off st htl hst p hp
    simp [charIndicesFrom] at hp
  | cons c rest ih =>
    intro tl off st htl hst p hp hnone
    have hsz : 0 < c.utf8Size := Char.utf8Size_pos c
    have htl2 : tl = (off + c.utf8Size) + utf8Len rest := by
      rw [utf8Len_cons] at htl
      omega
    by_cases hws : c.isWhitespace
    · rcases st with _ | b
      · simp only [split_ws_go, if_pos hws] at hnone
        rcases List.mem_cons.mp hp with rfl | hp2
        · exact hws
        · exact ih tl (off + c.utf8Size) none htl2 (by simp) p hp2 hnone
      · simp only [split_ws_go, if_pos hws] at hnone
        rcases List.mem_cons.mp hp with rfl | hp2
        · exact hws
        · exact ih tl (off + c.utf8Size) none htl2 (by simp) p hp2
            (fun r hr => hnone r (List.mem_cons_of_mem _ hr))
    · have hst2 : ∀ b2, (some (st.getD off) : Option Nat) = some b2 →
          b2 < off + c.utf8Size := by
        rcases st with _ | b
        · intro b2 hb2
          cases hb2
          simpa using hsz
        · intro b2 hb2
          cases hb2
          simp only [Option.getD_some]
          exact lt_trans (hst b rfl) (by omega)
      rcases List.mem_cons.mp hp with rfl | hp2
      · obtain ⟨e, he, hmem⟩ :=
          split_ws_go_pending rest tl (off + c.utf8Size) (st.getD off) htl2
        rcases st with _ | b
        · simp only [split_ws_go, if_neg hws] at hnone
          simp only [Option.getD_none] at hmem
          exact absurd ⟨le_refl off, (by omega : off < e)⟩ (hnone _ hmem)
        · simp only [split_ws_go, if_neg hws] at hnone
          simp only [Option.getD_some] at hmem
          have hb := hst b rfl
          exact absurd ⟨(le_of_lt hb : b ≤ off), (by omega : off < e)⟩
            (hnone _ hmem)
      · rcases st with _ | b
        · simp only [split_ws_go, if_neg hws] at hnone
          exact ih tl (off + c.utf8Size) (some off) htl2
            (fun b2 hb2 => by cases hb2; omega) p hp2 hnone
        · simp only [split_ws_go, if_neg hws] at hnone
          exact ih tl (off + c.utf8Size) (some b) htl2
            (fun b2 hb2 => by cases hb2; exact lt_trans (hst b rfl) (by omega))
            p hp2 hnone

/-! ## C8: `split_whitespace_token_ranges` -/

/-- C8: the token ranges are exactly the maximal non-whitespace runs: they
are nonempty and bounded by the byte length, pairwise non-overlapping and
strictly increasing, contain no whitespace character, every character outside
them is whitespace, and the empty input yields the empty sequence. -/
theorem C8_split_whitespace_token_ranges (text : List Char) :
    (∀ r ∈ split_whitespace_token_ranges text,
      r.start < r.stop ∧ r.stop ≤ utf8Len text) ∧
    List.Chain' (fun a b => a.stop ≤ b.start ∧ a.start < b.start)
      (split_whitespace_token_ranges text) ∧
    (∀ r ∈ split_whitespace_token_ranges text, ∀ p ∈ charIndicesFrom 0 text,
      r.start ≤ p.1 → p.1 < r.stop → p.2.isWhitespace = false) ∧
    (∀ p ∈ charIndicesFrom 0 text,
      (∀ r ∈ split_whitespace_token_ranges text,
        ¬(r.start ≤ p.1 ∧ p.1 < r.stop)) →
      p.2.isWhitespace = true) ∧
    split_whitespace_token_ranges [] = [] := by
  refine ⟨?_, ?_, ?_, ?_, by decide⟩
  · intro r hr
    have h := split_ws_go_bounds text (utf8Len text) 0 none (by simp) (by simp) r hr
    exact ⟨h.2.1, h.2.2⟩
  · exact split_ws_go_chain text (utf8Len text) 0 none (by simp) (by simp)
  · exact split_ws_go_inside text (utf8Len text) 0 none (by simp) (by simp)
  · exact split_ws_go_outside text (utf8Len text) 0 none (by simp) (by simp)

/-- Witness for C8 on a concrete two-token text. -/
theorem C8_split_whitespace_token_ranges_witness :
    (0 < 1 ∧ 1 ≤ utf8Len (cs ("a b"))) :=
  (C8_split_whitespace_token_ranges (cs ("a b"))).1 ⟨0, 1⟩ (by decide)

/-! ## Helper lemmas for `build_inline_code_marks` -/

/-- Every produced range starts either at the pending start or at the byte
offset of a non-whitespace character of the remaining text. -/
theorem split_ws_go_startchar (l : List Char) :
    ∀ (tl off : Nat) (st : Option Nat),
    tl = off + utf8Len l → (∀ b, st = some b → b < off) →
    ∀ r ∈ split_ws_go tl off l st,
      (∃ b, st = some b ∧ r.start = b) ∨
      (∃ c, (r.start, c) ∈ charIndicesFrom off l ∧ c.isWhitespace = false) := by
  induction l with
  | nil =>
    intro tl off st htl hst r hr
    rcases st with _ | b
    · simp [split_ws_go] at hr
    · simp only [split_ws_go, List.mem_singleton] at hr
      subst hr
      exact Or.inl ⟨b, rfl, rfl⟩
  | cons c rest ih =>
    intro tl off st htl hst r hr
    have hsz : 0 < c.utf8Size := Char.utf8Size_pos c
    have htl2 : tl = (off + c.utf8Size) + utf8Len rest := by
      rw [utf8Len_cons] at htl
      omega
    by_cases hws : c.isWhitespace
    · rcases st with _ | b
      · simp only [split_ws_go, if_pos hws] at hr
        rcases ih tl (off + c.utf8Size) none htl2 (by simp) r hr with
          ⟨b2, hb2, _⟩ | ⟨c2, hc2, hnws⟩
        · cases hb2
        · exact Or.inr ⟨c2, List.mem_cons_of_mem _ hc2, hnws⟩
      · simp only [split_ws_go, if_pos hws] at hr
        rcases List.mem_cons.mp hr with rfl | hr2
        · exact Or.inl ⟨b, rfl, rfl⟩
        · rcases ih tl (off + c.utf8Size) none htl2 (by simp) r hr2 with
            ⟨b2, hb2, _⟩ | ⟨c2, hc2, hnws⟩
          · cases hb2
          · exact Or.inr ⟨c2, List.mem_cons_of_mem _ hc2, hnws⟩
    · have hwsf : c.isWhitespace = false := by
        simpa using hws
      rcases st with _ | b
      · simp only [split_ws_go, if_neg hws] at hr
        rcases ih tl (off + c.utf8Size) (some off) htl2
            (fun b2 hb2 => by cases hb2; omega) r hr with
          ⟨b2, hb2, hstart⟩ | ⟨c2, hc2, hnws⟩
        · cases hb2
          exact Or.inr ⟨c, by rw [hstart]; exact List.mem_cons_self _ _, hwsf⟩
        · exact Or.inr ⟨c2, List.mem_cons_of_mem _ hc2, hnws⟩
      · simp only [split_ws_go, if_neg hws] at hr
        rcases ih tl (off + c.utf8Size) (some b) htl2
            (fun b2 hb2 => by cases hb2; exact lt_trans (hst b rfl) (by omega))
            r hr with
          ⟨b2, hb2, hstart⟩ | ⟨c2, hc2, hnws⟩
        · cases hb2
          exact Or.inl ⟨b, rfl, hstart⟩
        · exact Or.inr ⟨c2, List.mem_cons_of_mem _ hc2, hnws⟩

/-- Characters of a byte-range slice. -/
theorem mem_sliceBytes (text : List Char) (s e i : Nat) (c : Char)
    (hp : (i, c) ∈ charIndicesFrom 0 text) (hs : s ≤ i) (he : i < e) :
    c ∈ sliceBytes text s e := by
  simp only [sliceBytes, List.mem_filterMap]
  exact ⟨(i, c), hp, by simp [hs, he]⟩

/-- Conversely, every character of a slice comes from an in-range offset. -/
theorem sliceBytes_mem_inv (text : List Char) (s e : Nat) (c : Char)
    (hc : c ∈ sliceBytes text s e) :
    ∃ i, (i, c) ∈ charIndicesFrom 0 text ∧ s ≤ i ∧ i < e := by
  simp only [sliceBytes, List.mem_filterMap] at hc
  obtain ⟨p, hp, hf⟩ := hc
  by_cases hin : s ≤ p.1 ∧ p.1 < e
  · rw [if_pos hin] at hf
    cases hf
    exact ⟨p.1, by simpa using hp, hin.1, hin.2⟩
  · rw [if_neg hin] at hf
    cases hf

/-- A trimmed-empty text is all whitespace. -/
theorem all_ws_of_trim_nil (t : List Char) (h : trimWs t = []) :
    ∀ c ∈ t, c.isWhitespace = true := by
  unfold trimWs at h
  rw [List.reverse_eq_nil_iff, List.dropWhile_eq_nil_iff] at h
  intro c hc
  rw [← List.takeWhile_append_dropWhile (p := Char.isWhitespace) (l := t)] at hc
  rcases List.mem_append.mp hc with h1 | h2
  · exact List.mem_takeWhile_imp h1
  · exact h c (List.mem_reverse.mpr h2)

/-- A token range of `split_whitespace_token_ranges` slices to a nonempty,
non-trim-empty token. -/
theorem splitws_token_guards (text : List Char) (r : Rg)
    (hr : r ∈ split_whitespace_token_ranges text) :
    ¬ r.stop ≤ r.start ∧ (trimWs (sliceBytes text r.start r.stop)).isEmpty = false := by
  have hb := split_ws_go_bounds text (utf8Len text) 0 none (by simp) (by simp) r hr
  rcases split_ws_go_startchar text (utf8Len text) 0 none (by simp) (by simp) r hr with
    ⟨b, hb2, _⟩ | ⟨c, hc, hnws⟩
  · cases hb2
  · have hmem : c ∈ sliceBytes text r.start r.stop :=
      mem_sliceBytes text r.start r.stop r.start c hc (le_refl _) hb.2.1
    refine ⟨by omega, ?_⟩
    rw [Bool.eq_false_iff]
    intro hempty
    have hnil : trimWs (sliceBytes text r.start r.stop) = [] :=
      List.isEmpty_iff.mp hempty
    have := all_ws_of_trim_nil _ hnil c hmem
    rw [this] at hnws
    cases hnws

/-! ## C4: `build_inline_code_marks` -/

/-- C4: with linkification enabled, the first mark is a full-range `code`
mark; for each whitespace-delimited token, a URL token always contributes an
overlapping link mark with `requires_modifiers = true` and `decorate = false`;
a file-reference token contributes such a link mark iff its path is absolute
or a worktree id is configured, and contributes nothing otherwise. -/
theorem C4_build_inline_code_marks (text : List Char) (options : CodeTokenLinks)
    (hen : options.enabled = true) :
    (build_inline_code_marks text options).head? =
      some (⟨0, utf8Len text⟩, codeMark) ∧
    ∀ r ∈ split_whitespace_token_ranges text,
      (∀ u, parse_url_token (sliceBytes text r.start r.stop) = some u →
        (r, linkOnlyMark ⟨u, true, false⟩) ∈ build_inline_code_marks text options) ∧
      (parse_url_token (sliceBytes text r.start r.stop) = none →
        ∀ fr, parse_file_ref_token (sliceBytes text r.start r.stop) = some fr →
          ((options.worktree_id.isSome = true ∨ is_absolute_path fr.path = true) →
            ∃ url, (r, linkOnlyMark ⟨url, true, false⟩) ∈
              build_inline_code_marks text options) ∧
          (options.worktree_id = none → is_absolute_path fr.path = false →
            token_link_marks text options r = [])) := by
  have hhead : (build_inline_code_marks text options).head? =
      some (⟨0, utf8Len text⟩, codeMark) := by
    unfold build_inline_code_marks
    split <;> simp
  refine ⟨hhead, ?_⟩
  intro r hr
  have htext : text ≠ [] := by
    intro h0
    rw [h0] at hr
    simp [split_whitespace_token_ranges, split_ws_go] at hr
  have hcond : (!options.enabled || text.isEmpty) = false := by
    simp [hen, List.isEmpty_iff, htext]
  have hbuild : build_inline_code_marks text options =
      (⟨0, utf8Len text⟩, codeMark) ::
        (split_whitespace_token_ranges text).flatMap (token_link_marks text options) := by
    simp [build_inline_code_marks, hcond]
  obtain ⟨hlen, htrim⟩ := splitws_token_guards text r hr
  have hmemtlm : ∀ m, m ∈ token_link_marks text options r →
      m ∈ build_inline_code_marks text options := by
    intro m hm
    rw [hbuild]
    exact List.mem_cons_of_mem _ (List.mem_flatMap.mpr ⟨r, hr, hm⟩)
  have htrimne : ¬ ((trimWs (sliceBytes text r.start r.stop)).isEmpty = true) := by
    simp [htrim]
  constructor
  · intro u hurl
    apply hmemtlm
    unfold token_link_marks
    simp only [if_neg hlen, if_neg htrimne, hurl]
    exact List.mem_singleton.mpr rfl
  · intro hurl fr hfr
    constructor
    · intro hcan
      have hbcu : ∃ url0, build_ctx_open_url fr options.worktree_id = some url0 := by
        by_cases habs : is_absolute_path fr.path
        · exact ⟨_, bcu_abs fr options.worktree_id habs⟩
        · rcases hcan with hsome | habs2
          · obtain ⟨id0, hid⟩ := Option.isSome_iff_exists.mp hsome
            rw [hid]
            exact ⟨_, bcu_rel fr id0 (by simpa using habs)⟩
          · exact absurd habs2 (by simpa using habs)
      obtain ⟨url0, hurl0⟩ := hbcu
      have hcanb : (options.worktree_id.isSome || is_absolute_path fr.path) = true := by
        rcases hcan with h1 | h1 <;> simp [h1]
      refine ⟨url0, hmemtlm _ ?_⟩
      unfold token_link_marks
      simp only [if_neg hlen, if_neg htrimne, hurl, hfr, if_pos hcanb, hurl0]
      exact List.mem_singleton.mpr rfl
    · intro hwt habs
      have hcanb : ¬ ((options.worktree_id.isSome || is_absolute_path fr.path) = true) := by
        simp [hwt, habs]
      unfold token_link_marks
      simp only [if_neg hlen, if_neg htrimne, hurl, hfr, if_neg hcanb]

/-- Witness for C4 on a concrete inline-code text. -/
theorem C4_build_inline_code_marks_witness :
    (build_inline_code_marks (cs ("http://x")) ⟨true, none⟩).head? =
      some (⟨0, utf8Len (cs ("http://x"))⟩, codeMark) :=
  (C4_build_inline_code_marks (cs ("http://x")) ⟨true, none⟩ rfl).1

/-! ## `inline.rs`: the run segmenter of `Inline::request_layout`

`gpui::TextStyle` is a large presentation record; `request_layout` touches it
in exactly three ways: `clone()` (identity), `highlight(style)` (merging a
`HighlightStyle`), and the three inline-code overrides (`font_family`,
`font_size`, `color`).  The model keeps the three overridable fields
concretely and records an applied `HighlightStyle` as an opaque id. -/

/-- The model of `gpui::TextStyle` as used by `Inline::request_layout`. -/
structure TextStyle where
  fontFamily : String
  fontSize : Nat
  color : Nat
  highlight : Option Nat
deriving DecidableEq

/-- `TextStyle::highlight(style)`: merge a `HighlightStyle` (opaque id). -/
def TextStyle.withHighlight (ts : TextStyle) (h : Nat) : TextStyle :=
  { ts with highlight := some h }

/-- `InlineCodeStyle` from `style.rs`; only the three fields consulted by
`request_layout` (`font_family`, `font_size`, `text_color`) are modelled —
the remaining fields drive painting, not run construction. -/
structure InlineCodeStyle where
  fontFamily : Option String
  fontSize : Option Nat
  textColor : Option Nat
deriving DecidableEq

/-- The inline-code overrides of `request_layout` (`inline.rs` lines
459-469): each `Some` field of the style overrides the run style. -/
def applyInlineCode (ts : TextStyle) (ics : InlineCodeStyle) : TextStyle :=
  let t1 := match ics.fontFamily with
    | some f => { ts with fontFamily := f }
    | none => ts
  let t2 := match ics.fontSize with
    | some s => { t1 with fontSize := s }
    | none => t1
  match ics.textColor with
  | some c2 => { t2 with color := c2 }
  | none => t2

/-- A text run: a byte length paired with the style to paint it with
(`TextStyle::to_run(len)`). -/
structure Run where
  len : Nat
  style : TextStyle
deriving DecidableEq

/-- Sum of all run lengths. -/
def runsTotal (runs : List Run) : Nat := (runs.map Run.len).sum

/-- Byte position where run `k` begins: runs are laid out consecutively, so
it is the sum of the lengths of the previous runs. -/
def runStart (runs : List Run) (k : Nat) : Nat := ((runs.take k).map Run.len).sum

/-- The highlights-only branch of `request_layout` (`inline.rs` lines
382-394), with the loop's running offset `ix` made explicit. -/
def highlight_runs_go (ts : TextStyle) (L : Nat) : Nat → List (Rg × Nat) → List Run
  | ix, [] => if ix < L then [⟨L - ix, ts⟩] else []
  | ix, (r, h) :: rest =>
    (if ix < r.start then [⟨r.start - ix, ts⟩] else []) ++
      (⟨r.len, ts.withHighlight h⟩ :: highlight_runs_go ts L r.stop rest)

/-- The highlights-only branch of `request_layout`. -/
def highlight_runs (ts : TextStyle) (L : Nat) (highlights : List (Rg × Nat)) :
    List Run :=
  highlight_runs_go ts L 0 highlights

/-- Rust `Vec::dedup`: remove adjacent duplicates. -/
def dedupAdj : List Nat → List Nat
  | [] => []
  | [x] => [x]
  | x :: y :: rest => if x = y then dedupAdj (y :: rest) else x :: dedupAdj (y :: rest)

/-- The breakpoint collection of `request_layout` (`inline.rs` lines
400-412): `0`, `L`, and every range boundary, sorted and deduplicated.
`sort_unstable` on `Nat` is modelled by insertion sort (the sorted
permutation of a multiset of naturals is unique). -/
def collect_breakpoints (L : Nat) (highlights : List (Rg × Nat))
    (code_ranges : List Rg) : List Nat :=
  dedupAdj (List.insertionSort (· ≤ ·)
    (0 :: L :: (highlights.flatMap (fun p => [p.1.start, p.1.stop]) ++
      code_ranges.flatMap (fun r => [r.start, r.stop]))))

/-- The highlight lookup of the window loop (`inline.rs` lines 431-440):
after advancing, the indexed (head) highlight range styles the window
`[a, b)` iff it contains it fully. -/
def seg_highlight (hl2 : List (Rg × Nat)) (a b : Nat) : Option Nat :=
  match hl2 with
  | (r, st) :: _ => if r.start ≤ a ∧ b ≤ r.stop then some st else none
  | [] => none

/-- The code lookup of the window loop (`inline.rs` lines 448-453). -/
def seg_is_code (cl2 : List Rg) (a b : Nat) : Bool :=
  match cl2 with
  | r :: _ => decide (r.start ≤ a ∧ b ≤ r.stop)
  | [] => false

/-- The run style of one window (`inline.rs` lines 455-469): the base style,
with the containing highlight merged and the inline-code overrides applied
when the window sits in a code range. -/
def seg_style (ts : TextStyle) (ics : InlineCodeStyle) (hl2 : List (Rg × Nat))
    (cl2 : List Rg) (a b : Nat) : TextStyle :=
  let st1 := match seg_highlight hl2 a b with
    | some h => ts.withHighlight h
    | none => ts
  if seg_is_code cl2 a b then applyInlineCode st1 ics else st1

/-- The window loop of the breakpoint branch (`inline.rs` lines 414-474).
The source advances persistent indices `highlight_index` / `code_index` past
ranges ending at or before the window start and then tests the indexed range
for full containment of the window; advancing an index is dropping a prefix,
so the state is carried as the remaining suffix of each range list. -/
def segment_runs_go (ts : TextStyle) (ics : InlineCodeStyle) :
    List Nat → List (Rg × Nat) → List Rg → List Run
  | a :: b :: rest, hl, cl =>
    if a = b then segment_runs_go ts ics (b :: rest) hl cl
    else
      ⟨b - a,
        seg_style ts ics (hl.dropWhile (fun p => decide (p.1.stop ≤ a)))
          (cl.dropWhile (fun q => decide (q.stop ≤ a))) a b⟩ ::
      segment_runs_go ts ics (b :: rest)
        (hl.dropWhile (fun p => decide (p.1.stop ≤ a)))
        (cl.dropWhile (fun q => decide (q.stop ≤ a)))
  | _, _, _ => []

/-- The breakpoint branch of `request_layout`. -/
def segment_runs (ts : TextStyle) (ics : InlineCodeStyle) (L : Nat)
    (highlights : List (Rg × Nat)) (code_ranges : List Rg) : List Run :=
  segment_runs_go ts ics (collect_breakpoints L highlights code_ranges)
    highlights code_ranges

/-- `Inline::request_layout` run construction (`inline.rs` lines 381-475):
the highlights-only branch runs when there are no code ranges or no inline
code style, the breakpoint branch otherwise. -/
def request_layout_runs (ts : TextStyle) (L : Nat) (highlights : List (Rg × Nat))
    (code_ranges : List Rg) (ics : Option InlineCodeStyle) : List Run :=
  match ics with
  | none => highlight_runs ts L highlights
  | some style =>
    if code_ranges.isEmpty then highlight_runs ts L highlights
    else segment_runs ts style L highlights code_ranges

/-- Adjacent ranges in the list do not overlap (`stop ≤ next.start`). -/
def chainedRanges : List Rg → Bool
  | r :: r2 :: rest => decide (r.stop ≤ r2.start) && chainedRanges (r2 :: rest)
  | _ => true

/-- A sorted set of pairwise non-overlapping, nonempty ranges within
`[0, L]`. -/
def wfRanges (L : Nat) (rs : List Rg) : Bool :=
  rs.all (fun r => decide (r.start < r.stop ∧ r.stop ≤ L)) && chainedRanges rs

/-- Adjacent highlight ranges do not overlap. -/
def chainedPairs : List (Rg × Nat) → Bool
  | p :: q :: rest => decide (p.1.stop ≤ q.1.start) && chainedPairs (q :: rest)
  | _ => true

/-- A sorted set of pairwise non-overlapping, nonempty highlight ranges
within `[0, L]`, each with its style. -/
def wfHighlights (L : Nat) (hs : List (Rg × Nat)) : Bool :=
  hs.all (fun p => decide (p.1.start < p.1.stop ∧ p.1.stop ≤ L)) && chainedPairs hs

/-- Nonempty, pairwise non-overlapping sorted highlight ranges (no upper
bound): all that the style analysis needs. -/
def posChained (hs : List (Rg × Nat)) : Bool :=
  hs.all (fun p => decide (p.1.start < p.1.stop)) && chainedPairs hs

/-! ### Facts about the well-formedness predicates -/

theorem wfHighlights_mem (L : Nat) (hs : List (Rg × Nat))
    (h : wfHighlights L hs = true) :
    ∀ p ∈ hs, p.1.start < p.1.stop ∧ p.1.stop ≤ L := by
  rw [wfHighlights, Bool.and_eq_true] at h
  intro p hp
  simpa using List.all_eq_true.mp h.1 p hp

theorem wfRanges_mem (L : Nat) (rs : List Rg) (h : wfRanges L rs = true) :
    ∀ r ∈ rs, r.start < r.stop ∧ r.stop ≤ L := by
  rw [wfRanges, Bool.and_eq_true] at h
  intro r hr
  simpa using List.all_eq_true.mp h.1 r hr

theorem chainedPairs_tail (p : Rg × Nat) (rest : List (Rg × Nat))
    (h : chainedPairs (p :: rest) = true) : chainedPairs rest = true := by
  match rest with
  | [] => rfl
  | q :: rest2 =>
    rw [chainedPairs, Bool.and_eq_true] at h
    exact h.2

theorem chainedPairs_head (p : Rg × Nat) (rest : List (Rg × Nat))
    (h : chainedPairs (p :: rest) = true) :
    ∀ q, rest.head? = some q → p.1.stop ≤ q.1.start := by
  match rest with
  | [] => intro q hq; cases hq
  | q2 :: rest2 =>
    intro q hq
    cases hq
    rw [chainedPairs, Bool.and_eq_true] at h
    simpa using h.1

theorem wfHighlights_tail (L : Nat) (p : Rg × Nat) (rest : List (Rg × Nat))
    (h : wfHighlights L (p :: rest) = true) : wfHighlights L rest = true := by
  rw [wfHighlights, Bool.and_eq_true] at h ⊢
  exact ⟨by simpa using fun q hq => List.all_eq_true.mp h.1 q (List.mem_cons_of_mem _ hq),
    chainedPairs_tail p rest h.2⟩

theorem posChained_of_wf (L : Nat) (hs : List (Rg × Nat))
    (h : wfHighlights L hs = true) : posChained hs = true := by
  rw [wfHighlights, Bool.and_eq_true] at h
  rw [posChained, Bool.and_eq_true]
  refine ⟨List.all_eq_true.mpr ?_, h.2⟩
  intro p hp
  have := List.all_eq_true.mp h.1 p hp
  simp at this ⊢
  exact this.1

theorem posChained_tail (p : Rg × Nat) (rest : List (Rg × Nat))
    (h : posChained (p :: rest) = true) : posChained rest = true := by
  rw [posChained, Bool.and_eq_true] at h ⊢
  exact ⟨by simpa using fun q hq => List.all_eq_true.mp h.1 q (List.mem_cons_of_mem _ hq),
    chainedPairs_tail p rest h.2⟩

theorem posChained_mem (hs : List (Rg × Nat)) (h : posChained hs = true) :
    ∀ p ∈ hs, p.1.start < p.1.stop := by
  rw [posChained, Bool.and_eq_true] at h
  intro p hp
  simpa using List.all_eq_true.mp h.1 p hp

theorem posChained_head_le (p : Rg × Nat) (rest : List (Rg × Nat))
    (h : posChained (p :: rest) = true) :
    ∀ q ∈ rest, p.1.stop ≤ q.1.start := by
  induction rest generalizing p with
  | nil => intro q hq; cases hq
  | cons q2 rest2 ih =>
    intro q hq
    have hchain : p.1.stop ≤ q2.1.start := by
      rw [posChained, Bool.and_eq_true] at h
      rw [chainedPairs, Bool.and_eq_true] at *
      simpa using h.2.1
    rcases List.mem_cons.mp hq with rfl | hq2
    · exact hchain
    · have hq2pos : q2.1.start < q2.1.stop :=
        posChained_mem _ h q2 (List.mem_cons_of_mem _ (List.mem_cons_self _ _))
      have := ih q2 (posChained_tail p _ h) q hq2
      omega

theorem posChained_suffix (pre suf : List (Rg × Nat))
    (h : posChained (pre ++ suf) = true) : posChained suf = true := by
  induction pre with
  | nil => simpa using h
  | cons p pre2 ih => exact ih (posChained_tail p _ (by simpa using h))

/-! ### Run-list arithmetic -/

theorem runStart_zero (runs : List Run) : runStart runs 0 = 0 := by
  simp [runStart]

theorem runStart_cons_succ (x : Run) (runs : List Run) (k : Nat) :
    runStart (x :: runs) (k + 1) = x.len + runStart runs k := by
  simp [runStart]

theorem runsTotal_append (xs ys : List Run) :
    runsTotal (xs ++ ys) = runsTotal xs + runsTotal ys := by
  simp [runsTotal]

theorem runsTotal_cons (x : Run) (ys : List Run) :
    runsTotal (x :: ys) = x.len + runsTotal ys := by
  simp [runsTotal]

/-! ### The highlights-only branch -/

/-- Positivity: every run of the highlights-only branch has positive length,
for nonempty sorted highlight ranges. -/
theorem highlight_runs_go_pos (ts : TextStyle) (L : Nat) :
    ∀ (hs : List (Rg × Nat)) (ix : Nat), posChained hs = true →
    ∀ run ∈ highlight_runs_go ts L ix hs, 0 < run.len := by
  intro hs
  induction hs with
  | nil =>
    intro ix _ run hrun
    by_cases hix : ix < L
    · simp only [highlight_runs_go, if_pos hix, List.mem_singleton] at hrun
      subst hrun
      simpa using hix
    · simp [highlight_runs_go, if_neg hix] at hrun
  | cons p rest ih =>
    obtain ⟨r0, h0⟩ := p
    intro ix hpc run hrun
    simp only [highlight_runs_go] at hrun
    rcases List.mem_append.mp hrun with hg | hx
    · by_cases hgap : ix < r0.start
      · rw [if_pos hgap, List.mem_singleton] at hg
        subst hg
        simpa using hgap
      · rw [if_neg hgap] at hg
        cases hg
    · rcases List.mem_cons.mp hx with rfl | hrec
      · have hp : r0.start < r0.stop :=
          posChained_mem _ hpc (r0, h0) (List.mem_cons_self _ _)
        simp only [Rg.len]
        omega
      · exact ih r0.stop (posChained_tail _ _ hpc) run hrec

/-- Sum: the highlights-only branch partitions `[ix, L)`. -/
theorem highlight_runs_go_total (ts : TextStyle) (L : Nat) :
    ∀ (hs : List (Rg × Nat)) (ix : Nat), wfHighlights L hs = true →
    (∀ p, hs.head? = some p → ix ≤ p.1.start) →
    runsTotal (highlight_runs_go ts L ix hs) = L - ix := by
  intro hs
  induction hs with
  | nil =>
    intro ix _ _
    by_cases hix : ix < L
    · simp only [highlight_runs_go, if_pos hix]
      simp [runsTotal]
    · simp only [highlight_runs_go, if_neg hix]
      simp [runsTotal]
      omega
  | cons p rest ih =>
    obtain ⟨r0, h0⟩ := p
    intro ix hwf hhead
    have hr0 : r0.start < r0.stop ∧ r0.stop ≤ L :=
      wfHighlights_mem L _ hwf (r0, h0) (List.mem_cons_self _ _)
    have hix : ix ≤ r0.start := hhead (r0, h0) rfl
    have hch : chainedPairs ((r0, h0) :: rest) = true := by
      rw [wfHighlights, Bool.and_eq_true] at hwf
      exact hwf.2
    have hchain : ∀ q, rest.head? = some q → r0.stop ≤ q.1.start :=
      chainedPairs_head (r0, h0) rest hch
    have hrec := ih r0.stop (wfHighlights_tail L _ _ hwf) hchain
    simp only [highlight_runs_go, runsTotal_append, runsTotal_cons, hrec]
    by_cases hgap : ix < r0.start
    · rw [if_pos hgap]
      simp only [runsTotal_cons, runsTotal, List.map_cons, List.map_nil,
        List.sum_cons, List.sum_nil, Rg.len]
      omega
    · rw [if_neg hgap]
      simp only [runsTotal, List.map_nil, List.sum_nil, Rg.len]
      omega

/-- Style: a run of the highlights-only branch that lies fully inside a
highlight range carries exactly the base style with that highlight merged. -/
theorem highlight_runs_go_style (ts : TextStyle) (L : Nat) :
    ∀ (hs : List (Rg × Nat)) (ix : Nat), wfHighlights L hs = true →
    (∀ p, hs.head? = some p → ix ≤ p.1.start) →
    ∀ (k : Nat) (hk : k < (highlight_runs_go ts L ix hs).length) (r : Rg) (hsty : Nat),
      (r, hsty) ∈ hs →
      r.start ≤ ix + runStart (highlight_runs_go ts L ix hs) k →
      ix + runStart (highlight_runs_go ts L ix hs) k +
        ((highlight_runs_go ts L ix hs).get ⟨k, hk⟩).len ≤ r.stop →
      ((highlight_runs_go ts L ix hs).get ⟨k, hk⟩).style = ts.withHighlight hsty := by
  intro hs
  induction hs with
  | nil =>
    intro ix _ _ k hk r hsty hmem _ _
    simp at hmem
  | cons p rest ih =>
    obtain ⟨r0, h0⟩ := p
    intro ix hwf hhead k hk r hsty hmem h1 h2
    have hr0 : r0.start < r0.stop ∧ r0.stop ≤ L :=
      wfHighlights_mem L _ hwf (r0, h0) (List.mem_cons_self _ _)
    have hix : ix ≤ r0.start := hhead (r0, h0) rfl
    have hch : chainedPairs ((r0, h0) :: rest) = true := by
      rw [wfHighlights, Bool.and_eq_true] at hwf
      exact hwf.2
    have hchain : ∀ q, rest.head? = some q → r0.stop ≤ q.1.start :=
      chainedPairs_head (r0, h0) rest hch
    have hwft : wfHighlights L rest = true := wfHighlights_tail L _ _ hwf
    have hpc : posChained ((r0, h0) :: rest) = true := posChained_of_wf L _ hwf
    have hrestle : ∀ q ∈ rest, r0.stop ≤ q.1.start := posChained_head_le (r0, h0) rest hpc
    by_cases hgap : ix < r0.start
    · have hruns : highlight_runs_go ts L ix ((r0, h0) :: rest) =
          ⟨r0.start - ix, ts⟩ :: ⟨Rg.len r0, ts.withHighlight h0⟩ ::
            highlight_runs_go ts L r0.stop rest := by
        simp [highlight_runs_go, if_pos hgap]
      rw [hruns] at h1
      revert hk h2
      rw [hruns]
      intro hk h2
      rcases k with _ | k1
      · exfalso
        rw [runStart_zero] at h1
        rcases List.mem_cons.mp hmem with heq | hmem2
        · rw [Prod.mk.injEq] at heq
          obtain ⟨rfl, rfl⟩ := heq
          omega
        · have hle := hrestle (r, hsty) hmem2
          have hle2 : r0.stop ≤ r.start := hle
          omega
      · rcases k1 with _ | k2
        · rw [runStart_cons_succ, runStart_zero] at h1 h2
          rcases List.mem_cons.mp hmem with heq | hmem2
          · rw [Prod.mk.injEq] at heq
            obtain ⟨rfl, rfl⟩ := heq
            rfl
          · exfalso
            have hle2 : r0.stop ≤ r.start := hrestle (r, hsty) hmem2
            have h1b : r.start ≤ ix + (r0.start - ix + 0) := h1
            omega
        · have hk2 : k2 < (highlight_runs_go ts L r0.stop rest).length := by
            simp only [List.length_cons] at hk
            omega
          have hget : (⟨r0.start - ix, ts⟩ :: ⟨Rg.len r0, ts.withHighlight h0⟩ ::
              highlight_runs_go ts L r0.stop rest).get ⟨k2 + 1 + 1, hk⟩ =
              (highlight_runs_go ts L r0.stop rest).get ⟨k2, hk2⟩ := rfl
          rw [runStart_cons_succ, runStart_cons_succ] at h1 h2
          rw [hget] at h2 ⊢
          have h1b : r.start ≤ ix + ((r0.start - ix) + ((r0.stop - r0.start) +
              runStart (highlight_runs_go ts L r0.stop rest) k2)) := h1
          have h2b : ix + ((r0.start - ix) + ((r0.stop - r0.start) +
              runStart (highlight_runs_go ts L r0.stop rest) k2)) +
              ((highlight_runs_go ts L r0.stop rest).get ⟨k2, hk2⟩).len ≤ r.stop := h2
          rcases List.mem_cons.mp hmem with heq | hmem2
          · exfalso
            rw [Prod.mk.injEq] at heq
            obtain ⟨rfl, rfl⟩ := heq
            have hpos : 0 < ((highlight_runs_go ts L r.stop rest).get ⟨k2, hk2⟩).len :=
              highlight_runs_go_pos ts L rest r.stop (posChained_tail _ _ hpc) _
                (List.get_mem _ _ _)
            omega
          · refine ih r0.stop hwft hchain k2 hk2 r hsty hmem2 ?_ ?_
            · omega
            · omega
    · have hixeq : ix = r0.start := by omega
      have hruns : highlight_runs_go ts L ix ((r0, h0) :: rest) =
          ⟨Rg.len r0, ts.withHighlight h0⟩ :: highlight_runs_go ts L r0.stop rest := by
        simp [highlight_runs_go, if_neg hgap]
      rw [hruns] at h1
      revert hk h2
      rw [hruns]
      intro hk h2
      rcases k with _ | k2
      · rw [runStart_zero] at h1 h2
        rcases List.mem_cons.mp hmem with heq | hmem2
        · rw [Prod.mk.injEq] at heq
          obtain ⟨rfl, rfl⟩ := heq
          rfl
        · exfalso
          have hle2 : r0.stop ≤ r.start := hrestle (r, hsty) hmem2
          omega
      · have hk2 : k2 < (highlight_runs_go ts L r0.stop rest).length := by
          simp only [List.length_cons] at hk
          omega
        have hget : (⟨Rg.len r0, ts.withHighlight h0⟩ ::
            highlight_runs_go ts L r0.stop rest).get ⟨k2 + 1, hk⟩ =
            (highlight_runs_go ts L r0.stop rest).get ⟨k2, hk2⟩ := rfl
        rw [runStart_cons_succ] at h1 h2
        rw [hget] at h2 ⊢
        have h1b : r.start ≤ ix + ((r0.stop - r0.start) +
            runStart (highlight_runs_go ts L r0.stop rest) k2) := h1
        have h2b : ix + ((r0.stop - r0.start) +
            runStart (highlight_runs_go ts L r0.stop rest) k2) +
            ((highlight_runs_go ts L r0.stop rest).get ⟨k2, hk2⟩).len ≤ r.stop := h2
        rcases List.mem_cons.mp hmem with heq | hmem2
        · exfalso
          rw [Prod.mk.injEq] at heq
          obtain ⟨rfl, rfl⟩ := heq
          have hpos : 0 < ((highlight_runs_go ts L r.stop rest).get ⟨k2, hk2⟩).len :=
            highlight_runs_go_pos ts L rest r.stop (posChained_tail _ _ hpc) _
              (List.get_mem _ _ _)
          omega
        · refine ih r0.stop hwft hchain k2 hk2 r hsty hmem2 ?_ ?_
          · omega
          · omega

/-! ### Facts about the breakpoint list -/

theorem dedupAdj_head? (l : List Nat) : (dedupAdj l).head? = l.head? := by
  induction l with
  | nil => rfl
  | cons x rest ih =>
    cases rest with
    | nil => rfl
    | cons y rest2 =>
      by_cases hxy : x = y
      · rw [dedupAdj, if_pos hxy, ih]
        simp [hxy]
      · rw [dedupAdj, if_neg hxy]
        rfl

theorem dedupAdj_ne_nil (l : List Nat) (h : l ≠ []) : dedupAdj l ≠ [] := by
  intro h2
  have hh := dedupAdj_head? l
  rw [h2] at hh
  cases l with
  | nil => exact h rfl
  | cons x rest => cases hh

theorem dedupAdj_getLast? (l : List Nat) : (dedupAdj l).getLast? = l.getLast? := by
  induction l with
  | nil => rfl
  | cons x rest ih =>
    cases rest with
    | nil => rfl
    | cons y rest2 =>
      by_cases hxy : x = y
      · rw [dedupAdj, if_pos hxy, ih, List.getLast?_cons_cons]
      · rw [dedupAdj, if_neg hxy]
        have hne : dedupAdj (y :: rest2) ≠ [] := dedupAdj_ne_nil _ (by simp)
        obtain ⟨z, zs, hzzs⟩ := List.exists_cons_of_ne_nil hne
        rw [hzzs, List.getLast?_cons_cons, ← hzzs, ih, List.getLast?_cons_cons]

theorem dedupAdj_chain (l : List Nat) (h : List.Chain' (· ≤ ·) l) :
    List.Chain' (· ≤ ·) (dedupAdj l) := by
  induction l with
  | nil => simp [dedupAdj]
  | cons x rest ih =>
    cases rest with
    | nil => simp [dedupAdj]
    | cons y rest2 =>
      rw [List.chain'_cons] at h
      by_cases hxy : x = y
      · rw [dedupAdj, if_pos hxy]
        exact ih h.2
      · rw [dedupAdj, if_neg hxy]
        rw [List.chain'_cons']
        refine ⟨?_, ih h.2⟩
        intro z hz
        rw [dedupAdj_head?, List.head?_cons, Option.mem_some_iff] at hz
        subst hz
        exact h.1

theorem chain_le_last (x : Nat) (rest : List Nat)
    (h : List.Chain' (· ≤ ·) (x :: rest)) :
    x ≤ ((x :: rest).getLast?).getD 0 := by
  induction rest generalizing x with
  | nil => simp
  | cons y rest2 ih =>
    rw [List.chain'_cons] at h
    rw [List.getLast?_cons_cons]
    exact le_trans h.1 (ih y h.2)

theorem sorted_head_eq_zero (l : List Nat) (hs : List.Sorted (· ≤ ·) l)
    (h0 : 0 ∈ l) : l.head? = some 0 := by
  cases l with
  | nil => simp at h0
  | cons x rest =>
    rw [List.sorted_cons] at hs
    rcases List.mem_cons.mp h0 with h | h2
    · rw [← h]
      rfl
    · have hx : x ≤ 0 := hs.1 0 h2
      have : x = 0 := Nat.le_zero.mp hx
      rw [this]
      rfl

theorem sorted_getLast_eq (l : List Nat) (L : Nat) (hs : List.Sorted (· ≤ ·) l)
    (hL : L ∈ l) (hub : ∀ y ∈ l, y ≤ L) : l.getLast? = some L := by
  induction l with
  | nil => simp at hL
  | cons x rest ih =>
    cases rest with
    | nil =>
      rcases List.mem_cons.mp hL with h | h2
      · rw [← h]
        rfl
      · simp at h2
    | cons y rest2 =>
      rw [List.getLast?_cons_cons]
      rw [List.sorted_cons] at hs
      have hub2 : ∀ z ∈ y :: rest2, z ≤ L :=
        fun z hz => hub z (List.mem_cons_of_mem _ hz)
      rcases List.mem_cons.mp hL with h | h2
      · have hxy : x ≤ y := hs.1 y (List.mem_cons_self _ _)
        have hyx : y ≤ L := hub y (by simp)
        have hyL : y = L := by omega
        exact ih hs.2 (by rw [hyL]; exact List.mem_cons_self _ _) hub2
      · exact ih hs.2 h2 hub2

theorem collect_breakpoints_chain (L : Nat) (hs : List (Rg × Nat)) (cs0 : List Rg) :
    List.Chain' (· ≤ ·) (collect_breakpoints L hs cs0) :=
  dedupAdj_chain _ (List.Pairwise.chain' (List.sorted_insertionSort _ _))

theorem collect_breakpoints_head (L : Nat) (hs : List (Rg × Nat)) (cs0 : List Rg) :
    (collect_breakpoints L hs cs0).head? = some 0 := by
  unfold collect_breakpoints
  rw [dedupAdj_head?]
  apply sorted_head_eq_zero _ (List.sorted_insertionSort _ _)
  rw [List.Perm.mem_iff (List.perm_insertionSort _ _)]
  simp

theorem collect_breakpoints_getLast (L : Nat) (hs : List (Rg × Nat)) (cs0 : List Rg)
    (hwf : wfHighlights L hs = true) (hwfc : wfRanges L cs0 = true) :
    (collect_breakpoints L hs cs0).getLast? = some L := by
  unfold collect_breakpoints
  rw [dedupAdj_getLast?]
  apply sorted_getLast_eq _ L (List.sorted_insertionSort _ _)
  · rw [List.Perm.mem_iff (List.perm_insertionSort _ _)]
    simp
  · intro y hy
    rw [List.Perm.mem_iff (List.perm_insertionSort _ _)] at hy
    simp only [List.mem_cons, List.mem_append, List.mem_flatMap] at hy
    rcases hy with rfl | hy2
    · exact Nat.zero_le L
    rcases hy2 with rfl | hy3
    · exact le_refl _
    rcases hy3 with ⟨p, hp, hyp⟩ | ⟨r, hr, hyr⟩
    · have hb : p.1.start < p.1.stop ∧ p.1.stop ≤ L := wfHighlights_mem L hs hwf p hp
      rcases hyp with rfl | hyp2
      · omega
      · rcases hyp2 with rfl | hf
        · omega
        · simp at hf
    · have hb : r.start < r.stop ∧ r.stop ≤ L := wfRanges_mem L cs0 hwfc r hr
      rcases hyr with rfl | hyr2
      · omega
      · rcases hyr2 with rfl | hf
        · omega
        · simp at hf

/-! ### The breakpoint branch -/

/-- Positivity: every run of the breakpoint branch has positive length. -/
theorem segment_runs_go_pos (ts : TextStyle) (ics : InlineCodeStyle) :
    ∀ (bps : List Nat) (hl : List (Rg × Nat)) (cl : List Rg),
    List.Chain' (· ≤ ·) bps →
    ∀ run ∈ segment_runs_go ts ics bps hl cl, 0 < run.len := by
  intro bps
  induction bps with
  | nil =>
    intro hl cl _ run hrun
    simp [segment_runs_go] at hrun
  | cons a rest ih =>
    cases rest with
    | nil =>
      intro hl cl _ run hrun
      simp [segment_runs_go] at hrun
    | cons b rest2 =>
      intro hl cl hchain run hrun
      rw [List.chain'_cons] at hchain
      by_cases hab : a = b
      · rw [segment_runs_go, if_pos hab] at hrun
        exact ih hl cl hchain.2 run hrun
      · simp only [segment_runs_go, if_neg hab] at hrun
        rcases List.mem_cons.mp hrun with rfl | hrec
        · have : a ≤ b := hchain.1
          simpa using by omega
        · exact ih _ _ hchain.2 run hrec

/-- Sum: the runs of the breakpoint branch cover from the first breakpoint to
the last. -/
theorem segment_runs_go_total (ts : TextStyle) (ics : InlineCodeStyle) :
    ∀ (bps : List Nat) (hl : List (Rg × Nat)) (cl : List Rg),
    List.Chain' (· ≤ ·) bps →
    runsTotal (segment_runs_go ts ics bps hl cl) =
      bps.getLast?.getD 0 - bps.head?.getD 0 := by
  intro bps
  induction bps with
  | nil =>
    intro hl cl _
    simp [segment_runs_go, runsTotal]
  | cons a rest ih =>
    cases rest with
    | nil =>
      intro hl cl _
      simp [segment_runs_go, runsTotal]
    | cons b rest2 =>
      intro hl cl hchain
      rw [List.chain'_cons] at hchain
      have hble : b ≤ ((b :: rest2).getLast?).getD 0 := chain_le_last b rest2 hchain.2
      have hlast : (a :: b :: rest2).getLast? = (b :: rest2).getLast? :=
        List.getLast?_cons_cons
      by_cases hab : a = b
      · rw [segment_runs_go, if_pos hab, ih hl cl hchain.2, hlast, hab]
        simp
      · simp only [segment_runs_go, if_neg hab, runsTotal_cons,
          ih _ _ hchain.2, hlast]
        have hab2 : a ≤ b := hchain.1
        simp only [List.head?_cons, Option.getD_some]
        omega

/-- If a sorted non-overlapping range list has a member containing `[a, b)`
with `a < b`, dropping the ranges ending at or before `a` exposes exactly
that member at the head. -/
theorem dropWhile_head_containing (a : Nat) :
    ∀ (l : List (Rg × Nat)) (r : Rg) (hsty : Nat),
    posChained l = true → (r, hsty) ∈ l → r.start ≤ a → a < r.stop →
    ∃ tail2, l.dropWhile (fun p => decide (p.1.stop ≤ a)) = (r, hsty) :: tail2 := by
  intro l
  induction l with
  | nil =>
    intro r hsty _ hmem
    simp at hmem
  | cons p rest ih =>
    obtain ⟨pr, ph⟩ := p
    intro r hsty hpc hmem hra har
    by_cases hp : pr.stop ≤ a
    · rw [List.dropWhile_cons, if_pos (by simpa using hp)]
      have hmem2 : (r, hsty) ∈ rest := by
        rcases List.mem_cons.mp hmem with heq | h2
        · exfalso
          rw [Prod.mk.injEq] at heq
          obtain ⟨rfl, rfl⟩ := heq
          omega
        · exact h2
      exact ih r hsty (posChained_tail _ _ hpc) hmem2 hra har
    · rw [List.dropWhile_cons, if_neg (by simpa using hp)]
      rcases List.mem_cons.mp hmem with heq | h2
      · exact ⟨rest, by rw [heq]⟩
      · exfalso
        have hle : pr.stop ≤ r.start :=
          posChained_head_le (pr, ph) rest hpc (r, hsty) h2
        omega

/-- Style: a run of the breakpoint branch that lies fully inside a highlight
range and inside no code range carries exactly the base style with that
highlight merged. -/
theorem segment_runs_go_style (ts : TextStyle) (ics : InlineCodeStyle)
    (hs : List (Rg × Nat)) (cs0 : List Rg) (hpcs : posChained hs = true) :
    ∀ (bps : List Nat) (hl : List (Rg × Nat)) (cl : List Rg) (pre : List (Rg × Nat)),
    List.Chain' (· ≤ ·) bps →
    pre ++ hl = hs →
    (∀ a2, bps.head? = some a2 → ∀ p ∈ pre, p.1.stop ≤ a2) →
    (∀ x ∈ cl, x ∈ cs0) →
    ∀ (k : Nat) (hk : k < (segment_runs_go ts ics bps hl cl).length) (r : Rg) (hsty : Nat),
      (r, hsty) ∈ hs →
      r.start ≤ bps.head?.getD 0 + runStart (segment_runs_go ts ics bps hl cl) k →
      bps.head?.getD 0 + runStart (segment_runs_go ts ics bps hl cl) k +
        ((segment_runs_go ts ics bps hl cl).get ⟨k, hk⟩).len ≤ r.stop →
      (∀ c ∈ cs0,
        ¬(c.start ≤ bps.head?.getD 0 + runStart (segment_runs_go ts ics bps hl cl) k ∧
          bps.head?.getD 0 + runStart (segment_runs_go ts ics bps hl cl) k +
            ((segment_runs_go ts ics bps hl cl).get ⟨k, hk⟩).len ≤ c.stop)) →
      ((segment_runs_go ts ics bps hl cl).get ⟨k, hk⟩).style = ts.withHighlight hsty := by
  intro bps
  induction bps with
  | nil =>
    intro hl cl pre _ _ _ _ k hk
    simp [segment_runs_go] at hk
  | cons a rest ih =>
    cases rest with
    | nil =>
      intro hl cl pre _ _ _ _ k hk
      simp [segment_runs_go] at hk
    | cons b rest2 =>
      intro hl cl pre hchain hpre hprele hclsub k hk r hsty hmem h1 h2 hcs
      rw [List.chain'_cons] at hchain
      by_cases hab : a = b
      · subst hab
        have hruns : segment_runs_go ts ics (a :: a :: rest2) hl cl =
            segment_runs_go ts ics (a :: rest2) hl cl := by
          rw [segment_runs_go, if_pos rfl]
        rw [hruns, List.head?_cons, Option.getD_some] at h1
        rw [List.head?_cons, Option.getD_some] at hcs
        revert hk h2 hcs
        rw [hruns]
        intro hk h2 hcs
        have hh : (a :: rest2).head?.getD 0 = a := by simp
        refine ih hl cl pre hchain.2 hpre ?_ hclsub k hk r hsty hmem ?_ ?_ ?_
        · intro a2 ha2 p hp
          rw [List.head?_cons, Option.some_inj] at ha2
          subst ha2
          exact hprele a rfl p hp
        · rw [hh]
          exact h1
        · rw [hh]
          exact h2
        · rw [hh]
          exact hcs
      · have hab2 : a ≤ b := hchain.1
        have hablt : a < b := by omega
        have hruns : segment_runs_go ts ics (a :: b :: rest2) hl cl =
            ⟨b - a,
              seg_style ts ics (hl.dropWhile (fun p => decide (p.1.stop ≤ a)))
                (cl.dropWhile (fun q => decide (q.stop ≤ a))) a b⟩ ::
            segment_runs_go ts ics (b :: rest2)
              (hl.dropWhile (fun p => decide (p.1.stop ≤ a)))
              (cl.dropWhile (fun q => decide (q.stop ≤ a))) := by
          rw [segment_runs_go, if_neg hab]
        rw [hruns, List.head?_cons, Option.getD_some] at h1
        rw [List.head?_cons, Option.getD_some] at hcs
        revert hk h2 hcs
        rw [hruns]
        intro hk h2 hcs
        rw [List.head?_cons, Option.getD_some] at h2
        rcases k with _ | k2
        · -- the emitted window [a, b) itself
          rw [runStart_zero] at h1 h2 hcs
          have hget0 : ((⟨b - a,
              seg_style ts ics (hl.dropWhile (fun p => decide (p.1.stop ≤ a)))
                (cl.dropWhile (fun q => decide (q.stop ≤ a))) a b⟩ ::
              segment_runs_go ts ics (b :: rest2)
                (hl.dropWhile (fun p => decide (p.1.stop ≤ a)))
                (cl.dropWhile (fun q => decide (q.stop ≤ a)))).get ⟨0, hk⟩) =
              ⟨b - a,
                seg_style ts ics (hl.dropWhile (fun p => decide (p.1.stop ≤ a)))
                  (cl.dropWhile (fun q => decide (q.stop ≤ a))) a b⟩ := rfl
          rw [hget0] at h2 hcs ⊢
          have hra : r.start ≤ a := by
            have := h1
            omega
          have hrb : b ≤ r.stop := by
            have h2b : a + 0 + (b - a) ≤ r.stop := h2
            omega
          have hmemhl : (r, hsty) ∈ hl := by
            have : (r, hsty) ∈ pre ++ hl := by rw [hpre]; exact hmem
            rcases List.mem_append.mp this with hinpre | hinl
            · exfalso
              have := hprele a rfl (r, hsty) hinpre
              have h3 : r.stop ≤ a := this
              omega
            · exact hinl
          have hpchl : posChained hl := by
            refine posChained_suffix pre hl ?_
            rw [hpre]
            exact hpcs
          obtain ⟨tail2, hdw⟩ :=
            dropWhile_head_containing a hl r hsty hpchl hmemhl hra (by omega)
          have hsegh : seg_highlight
              (hl.dropWhile (fun p => decide (p.1.stop ≤ a))) a b = some hsty := by
            rw [hdw, seg_highlight, if_pos ⟨hra, hrb⟩]
          have hsegc : seg_is_code
              (cl.dropWhile (fun q => decide (q.stop ≤ a))) a b = false := by
            rcases hcl2 : cl.dropWhile (fun q => decide (q.stop ≤ a)) with _ | ⟨q, tlc⟩
            · rw [hcl2]
              rfl
            · rw [hcl2, seg_is_code]
              have hqcl : q ∈ cl := by
                have hqin : q ∈ cl.dropWhile (fun q => decide (q.stop ≤ a)) := by
                  rw [hcl2]
                  exact List.mem_cons_self _ _
                exact (List.dropWhile_sublist _).subset hqin
              have hq0 : q ∈ cs0 := hclsub q hqcl
              have := hcs q hq0
              have hnc : ¬(q.start ≤ a ∧ b ≤ q.stop) := by
                intro hc
                exact this ⟨by omega, (by omega : a + 0 + (b - a) ≤ q.stop)⟩
              exact decide_eq_false hnc
          show seg_style ts ics (hl.dropWhile (fun p => decide (p.1.stop ≤ a)))
              (cl.dropWhile (fun q => decide (q.stop ≤ a))) a b = ts.withHighlight hsty
          rw [seg_style, hsegh, hsegc]
          rfl
        · -- a later window: recurse
          have hk2 : k2 < (segment_runs_go ts ics (b :: rest2)
              (hl.dropWhile (fun p => decide (p.1.stop ≤ a)))
              (cl.dropWhile (fun q => decide (q.stop ≤ a)))).length := by
            simp only [List.length_cons] at hk
            omega
          have hget : ((⟨b - a,
              seg_style ts ics (hl.dropWhile (fun p => decide (p.1.stop ≤ a)))
                (cl.dropWhile (fun q => decide (q.stop ≤ a))) a b⟩ ::
              segment_runs_go ts ics (b :: rest2)
                (hl.dropWhile (fun p => decide (p.1.stop ≤ a)))
                (cl.dropWhile (fun q => decide (q.stop ≤ a)))).get ⟨k2 + 1, hk⟩) =
              (segment_runs_go ts ics (b :: rest2)
                (hl.dropWhile (fun p => decide (p.1.stop ≤ a)))
                (cl.dropWhile (fun q => decide (q.stop ≤ a)))).get ⟨k2, hk2⟩ := rfl
          rw [runStart_cons_succ] at h1 h2 hcs
          rw [hget] at h2 hcs ⊢
          have harith : a + ((⟨b - a,
              seg_style ts ics (hl.dropWhile (fun p => decide (p.1.stop ≤ a)))
                (cl.dropWhile (fun q => decide (q.stop ≤ a))) a b⟩ : Run).len +
              runStart (segment_runs_go ts ics (b :: rest2)
                (hl.dropWhile (fun p => decide (p.1.stop ≤ a)))
                (cl.dropWhile (fun q => decide (q.stop ≤ a)))) k2) =
              b + runStart (segment_runs_go ts ics (b :: rest2)
                (hl.dropWhile (fun p => decide (p.1.stop ≤ a)))
                (cl.dropWhile (fun q => decide (q.stop ≤ a)))) k2 := by
            show a + ((b - a) + _) = _
            omega
          rw [harith] at h1 h2 hcs
          refine ih (hl.dropWhile (fun p => decide (p.1.stop ≤ a)))
            (cl.dropWhile (fun q => decide (q.stop ≤ a)))
            (pre ++ hl.takeWhile (fun p => decide (p.1.stop ≤ a)))
            hchain.2 ?_ ?_ ?_ k2 hk2 r hsty hmem ?_ ?_ ?_
          · rw [List.append_assoc, List.takeWhile_append_dropWhile]
            exact hpre
          · intro a2 ha2 p hp
            rw [List.head?_cons, Option.some_inj] at ha2
            subst ha2
            rcases List.mem_append.mp hp with hp1 | hp2
            · have := hprele a rfl p hp1
              omega
            · have := List.mem_takeWhile_imp hp2
              have h3 : p.1.stop ≤ a := by simpa using this
              omega
          · intro x hx
            exact hclsub x ((List.dropWhile_sublist _).subset hx)
          · rw [List.head?_cons, Option.getD_some]
            exact h1
          · rw [List.head?_cons, Option.getD_some]
            exact h2
          · rw [List.head?_cons, Option.getD_some]
            exact hcs

/-! ## C1: the run segmenter of `Inline::request_layout` -/

/-- C1: for every text length `L`, sorted non-overlapping highlight ranges and
sorted non-overlapping code ranges within `[0, L]`, both branches of
`request_layout` produce an ordered, gap-free, non-overlapping partition of
`[0, L)`: every run length is positive and the lengths sum to `L` (runs are
laid out consecutively, so run `k` covers `[runStart k, runStart k + len k)`
and consecutive runs are adjacent by construction); moreover a run lying
fully inside a highlight range (necessarily exactly one, as the ranges are
disjoint and the run nonempty) and inside no code range carries exactly the
base style with that highlight merged — no code override. -/
theorem C1_request_layout_runs (ts : TextStyle) (L : Nat) (hs : List (Rg × Nat))
    (cs0 : List Rg) (ics : Option InlineCodeStyle)
    (hwf : wfHighlights L hs = true) (hwfc : wfRanges L cs0 = true) :
    (∀ run ∈ request_layout_runs ts L hs cs0 ics, 0 < run.len) ∧
    runsTotal (request_layout_runs ts L hs cs0 ics) = L ∧
    (∀ (k : Nat) (hk : k < (request_layout_runs ts L hs cs0 ics).length)
        (r : Rg) (hsty : Nat),
      (r, hsty) ∈ hs →
      r.start ≤ runStart (request_layout_runs ts L hs cs0 ics) k →
      runStart (request_layout_runs ts L hs cs0 ics) k +
        ((request_layout_runs ts L hs cs0 ics).get ⟨k, hk⟩).len ≤ r.stop →
      (∀ c ∈ cs0, ¬(c.start ≤ runStart (request_layout_runs ts L hs cs0 ics) k ∧
        runStart (request_layout_runs ts L hs cs0 ics) k +
          ((request_layout_runs ts L hs cs0 ics).get ⟨k, hk⟩).len ≤ c.stop)) →
      ((request_layout_runs ts L hs cs0 ics).get ⟨k, hk⟩).style =
        ts.withHighlight hsty) := by
  have hpos0 : posChained hs = true := posChained_of_wf L hs hwf
  have hhl_pos : ∀ run ∈ highlight_runs ts L hs, 0 < run.len :=
    highlight_runs_go_pos ts L hs 0 hpos0
  have hhl_total : runsTotal (highlight_runs ts L hs) = L := by
    have := highlight_runs_go_total ts L hs 0 hwf (fun p _ => Nat.zero_le _)
    simpa using this
  have hhl_style : ∀ (k : Nat) (hk : k < (highlight_runs ts L hs).length)
      (r : Rg) (hsty : Nat),
      (r, hsty) ∈ hs →
      r.start ≤ runStart (highlight_runs ts L hs) k →
      runStart (highlight_runs ts L hs) k +
        ((highlight_runs ts L hs).get ⟨k, hk⟩).len ≤ r.stop →
      ((highlight_runs ts L hs).get ⟨k, hk⟩).style = ts.withHighlight hsty := by
    intro k hk r hsty hmem hc1 hc2
    have hc1b : r.start ≤ 0 + runStart (highlight_runs_go ts L 0 hs) k := by
      rw [Nat.zero_add]
      exact hc1
    have hc2b : 0 + runStart (highlight_runs_go ts L 0 hs) k +
        ((highlight_runs_go ts L 0 hs).get ⟨k, hk⟩).len ≤ r.stop := by
      rw [Nat.zero_add]
      exact hc2
    exact highlight_runs_go_style ts L hs 0 hwf (fun p _ => Nat.zero_le _) k hk
      r hsty hmem hc1b hc2b
  rcases ics with _ | style
  · exact ⟨hhl_pos, hhl_total,
      fun k hk r hsty hmem hc1 hc2 _ => hhl_style k hk r hsty hmem hc1 hc2⟩
  · by_cases hempty : cs0.isEmpty
    · have hrr : request_layout_runs ts L hs cs0 (some style) =
          highlight_runs ts L hs := by
        simp [request_layout_runs, hempty]
      rw [hrr]
      exact ⟨hhl_pos, hhl_total,
        fun k hk r hsty hmem hc1 hc2 _ => hhl_style k hk r hsty hmem hc1 hc2⟩
    · have hrr : request_layout_runs ts L hs cs0 (some style) =
          segment_runs ts style L hs cs0 := by
        simp [request_layout_runs, hempty]
      rw [hrr]
      have hchain := collect_breakpoints_chain L hs cs0
      have hhead : (collect_breakpoints L hs cs0).head?.getD 0 = 0 := by
        rw [collect_breakpoints_head]
        rfl
      refine ⟨segment_runs_go_pos ts style (collect_breakpoints L hs cs0) hs cs0 hchain,
        ?_, ?_⟩
      · have := segment_runs_go_total ts style (collect_breakpoints L hs cs0) hs cs0 hchain
        rw [collect_breakpoints_getLast L hs cs0 hwf hwfc,
          collect_breakpoints_head] at this
        simpa using this
      · intro k hk r hsty hmem h1 h2 hcs
        refine segment_runs_go_style ts style hs cs0 hpos0
          (collect_breakpoints L hs cs0) hs cs0 [] hchain rfl
          (fun a2 _ p hp => absurd hp (List.not_mem_nil p))
          (fun x hx => hx) k hk r hsty hmem ?_ ?_ ?_
        · rw [hhead, Nat.zero_add]
          exact h1
        · rw [hhead, Nat.zero_add]
          exact h2
        · simp only [hhead, Nat.zero_add]
          exact hcs

/-- Witness for C1 at a concrete input exercising the breakpoint branch. -/
theorem C1_request_layout_runs_witness :
    runsTotal (request_layout_runs ⟨"sans", 14, 1, none⟩ 10 [(⟨2, 4⟩, 7)] [⟨3, 8⟩]
      (some ⟨some ("mono"), some 12, some 2⟩)) = 10 :=
  (C1_request_layout_runs ⟨"sans", 14, 1, none⟩ 10 [(⟨2, 4⟩, 7)] [⟨3, 8⟩]
    (some ⟨some ("mono"), some 12, some 2⟩) (by decide) (by decide)).2.1

end GpuiText